import Mathlib

set_option linter.unusedVariables false

/-! Shallow embedding of the Cloud SDK markdown token renderer
(googlecloudsdk/core/document_renderers/token_renderer.py).

Text is modelled as List Char.  Python integers are Int (Nat where the
source value is a length or a level).  Operations that can raise a Python
exception (IndexError on out-of-range single-index access, KeyError on a
failed EMBELLISHMENTS lookup) return Option; none marks the exception.
The display-width and bullet providers (console_attr) and the base
renderer fields (width, font, blank) live outside the repository, so they
are modelled from the spec where noted. -/

/-- The token styles (Token.Markdown.*). -/
inductive StyleTag where
  | Bold
  | BoldItalic
  | Code
  | Definition
  | Italic
  | Normal
  | Section
  | Truncated
  | Value
deriving DecidableEq, Repr

/-- The control sequence indicator character: CSI = chr(0). -/
def CSI : Char := Char.ofNat 0

/-- The EMBELLISHMENTS table: letter following the CSI byte, mapped to a
token type.  A failed lookup models the Python KeyError. -/
def embellishments (c : Char) : Option StyleTag :=
  if c = 'B' then some StyleTag.Bold
  else if c = 'C' then some StyleTag.Code
  else if c = 'I' then some StyleTag.Italic
  else if c = 'N' then some StyleTag.Normal
  else if c = 'Z' then some StyleTag.BoldItalic
  else none

/-- Python str.isspace character class (ASCII part; the inputs exercised
here only use the plain space). -/
def isPySpace (c : Char) : Bool :=
  c == ' ' || c == '\t' || c == '\n' || c == '\r' ||
  c == Char.ofNat 11 || c == Char.ofNat 12

/-- Python str.isspace: nonempty and all characters are whitespace. -/
def isSpaceStr (l : List Char) : Bool :=
  !l.isEmpty && l.all isPySpace

/-- The leading run of spaces of a string; models re.match('( *)', text). -/
def leadSpaces (l : List Char) : List Char :=
  l.takeWhile (fun c => c == ' ')

/-- Helper for wordsOf: Python str.split() with no argument. -/
def wordsOfAux (cur : List Char) : List Char → List (List Char)
  | [] => if cur.isEmpty then [] else [cur.reverse]
  | c :: rest =>
    if isPySpace c then
      if cur.isEmpty then wordsOfAux [] rest
      else cur.reverse :: wordsOfAux [] rest
    else wordsOfAux (c :: cur) rest

/-- Python str.split(): split on whitespace runs, dropping empty parts. -/
def wordsOf (l : List Char) : List (List Char) := wordsOfAux [] l

/-- Python text.split('=', 1): the part before the first '=' and, when an
'=' is present, the part after it. -/
def splitEq : List Char → List Char × Option (List Char)
  | [] => ([], none)
  | c :: rest =>
    if c = '=' then ([], some rest)
    else
      let p := splitEq rest
      (c :: p.1, p.2)

/-- Python str.endswith(suffix). -/
def endsWithL (l suf : List Char) : Bool :=
  decide (suf.length ≤ l.length) && l.drop (l.length - suf.length) == suf

/-- Whether pre is a leading segment of l. -/
def leadsWith : List Char → List Char → Bool
  | [], _ => true
  | _ :: _, [] => false
  | c :: cs, d :: ds => c == d && leadsWith cs ds

/-- Python group.partition(delim) at the first occurrence: the part
before, whether the delimiter occurred, and the remainder after it. -/
def partitionOn (delim : List Char) : List Char → List Char × Bool × List Char
  | [] => ([], false, [])
  | c :: rest =>
    if leadsWith delim (c :: rest) then ([], true, (c :: rest).drop delim.length)
    else
      let p := partitionOn delim rest
      (c :: p.1, p.2.1, p.2.2)

/-- TokenRenderer._UnFormat: strip every CSI byte together with the one
character following it (a trailing lone CSI byte is dropped). -/
def unFormat : List Char → List Char
  | [] => []
  | c :: rest =>
    if c = CSI then
      match rest with
      | [] => []
      | _ :: r2 => unFormat r2
    else c :: unFormat rest

/-- Well-formed inline markers: every CSI byte is immediately followed by
a letter present in the EMBELLISHMENTS table. -/
def wfMarkers : List Char → Bool
  | [] => true
  | c :: rest =>
    if c = CSI then
      match rest with
      | [] => false
      | e :: r2 => (embellishments e).isSome && wfMarkers r2
    else wfMarkers rest

/-- Modelled from the spec: console_attr.GetControlSequenceLen counts the
characters of a control sequence, from its start up to and including the
first alphabetic character. -/
def countToAlpha : List Char → Nat
  | [] => 0
  | c :: rest => 1 + (if c.isAlpha then 0 else countToAlpha rest)

/-- Modelled from the spec: console_attr.GetControlSequenceLen; 0 when the
buffer does not start with the CSI byte. -/
def gcsLen (buf : List Char) : Nat :=
  match buf with
  | [] => 0
  | c :: _ => if c = CSI then countToAlpha buf else 0

/-- Scan for displayWidth: when the flag is set the scan is inside a
control sequence and consumes characters up to and including the first
alphabetic one without counting them. -/
def displayWidthAux : Bool → List Char → Nat
  | _, [] => 0
  | true, c :: rest =>
    if c.isAlpha then displayWidthAux false rest else displayWidthAux true rest
  | false, c :: rest =>
    if c = CSI then displayWidthAux true rest else 1 + displayWidthAux false rest

/-- Modelled from the spec: the display-width provider
(console_attr.DisplayWidth).  A control sequence (the CSI byte and the
characters through the first alphabetic one, per GetControlSequenceLen)
does not count; every other character is one column wide (the rendered
text here is narrow). -/
def displayWidth (l : List Char) : Nat := displayWidthAux false l

/-- One entry of the hanging indent stack (TokenRenderer.Indent). -/
structure IndentEntry where
  indent : Int
  hangingIndent : Int
deriving DecidableEq, Repr

/-- TokenRenderer.Indent(compact): indent 0 when compact, else INDENT = 4;
the hanging indent starts equal to the indent. -/
def mkIndent (compact : Bool) : IndentEntry :=
  let i : Int := if compact then 0 else 4
  ⟨i, i⟩

/-- The default entry used for total list access (Python would raise on an
index that the renderer never produces). -/
def defIndent : IndentEntry := ⟨0, 0⟩

/-- A run: one (token type, text) tuple. -/
abbrev TokenRun := StyleTag × List Char

/-- The mutable state of one TokenRenderer session (including the base
renderer fields width, font and blank, modelled from the spec). -/
structure RState where
  width : Int
  font : Nat
  blank : Bool
  compact : Bool
  currentTokenType : StyleTag
  fill : Int
  height : Nat
  ignoreParagraph : Bool
  ignoreWidth : Bool
  indent : List IndentEntry
  level : Nat
  lines : List (List TokenRun)
  tokens : List TokenRun
  truncated : Bool
  rows : List (List Char)
deriving DecidableEq, Repr

/-- TokenRenderer.__init__ (compact is the constructor argument, width and
height the session configuration). -/
def initState (width : Int) (height : Nat) (compact : Bool) : RState :=
  { width := width
    font := 0
    blank := true
    compact := compact
    currentTokenType := StyleTag.Normal
    fill := 0
    height := height
    ignoreParagraph := false
    ignoreWidth := false
    indent := [mkIndent compact]
    level := 0
    lines := []
    tokens := []
    truncated := false
    rows := [] }

/-- Modelled from the spec: the bullet glyphs supplied by the console
attribute provider (console_attr.GetBullets), a fixed nonempty list. -/
def bullets : List (List Char) :=
  [['▪'], ['◆'], ['▸'], ['▫'], ['◇'], ['▹']]

/-- Python ' ' * n (negative counts give the empty string). -/
def mkSpaces (n : Int) : List Char := List.replicate n.toNat ' '

/-- Display width of a run's text. -/
def runWidth (r : TokenRun) : Nat := displayWidth r.2

/-- Sum of the display widths of a line's runs. -/
def lineWidth (l : List TokenRun) : Nat := (l.map runWidth).sum

/-- The trailing-space deletion loop of _NewLine: drop trailing runs whose
text is whitespace-only. -/
def trimTrailing (l : List TokenRun) : List TokenRun :=
  ((l.reverse.dropWhile fun r => isSpaceStr r.2)).reverse

/-- The token-list walk of _Truncate: subtract each run's display width
from the remaining budget and cut the run that crosses the space reserved
for the truncation marker, dropping the runs after it. -/
def truncWalk (markerWidth : Int) : List TokenRun → Int → List TokenRun
  | [], _ => []
  | (tt, word) :: rest, available =>
    let w : Int := displayWidth word
    let available := available - w
    if available ≤ markerWidth then
      let trim := markerWidth - available
      let word := if trim ≠ 0 then word.take (word.length - trim.toNat) else word
      [(tt, word)]
    else (tt, word) :: truncWalk markerWidth rest available

/-- TokenRenderer._Truncate: set the truncated flag and return the altered
last line, ending in the Truncated marker run. -/
def truncateTokens (s : RState) (tokens : List TokenRun)
    (overflow : Option (List Char × Int)) : RState × List TokenRun :=
  let s := { s with truncated := true }
  let markerString : List Char := ['.', '.', '.']
  let markerWidth : Int := 3
  let markerToken : TokenRun := (StyleTag.Truncated, markerString)
  let tokens :=
    match tokens, overflow with
    | _ :: _, some (word, available) =>
      if markerWidth = available then tokens
      else if markerWidth + 1 ≤ available then
        let w : List Char := ' ' :: (unFormat word).take (available - markerWidth - 1).toNat
        tokens ++ [(s.currentTokenType, w)]
      else truncWalk markerWidth tokens s.width
    | _, _ => tokens
  (s, tokens ++ [markerToken])

/-- TokenRenderer._NewLine: move the current token list to the line list;
a no-op once truncated (or for an empty line in compact mode); deletes the
trailing spaces of the previous line and triggers truncation at the
height limit. -/
def newLine (s : RState) (overflow : Option (List Char × Int)) : RState :=
  let tokens := s.tokens
  let s1 : RState := { s with tokens := [] }
  if s1.truncated || (tokens.isEmpty && s1.compact) then s1
  else
    let s2 : RState :=
      match s1.lines.getLast? with
      | none => s1
      | some last => { s1 with lines := s1.lines.dropLast ++ [trimTrailing last] }
    if s2.height ≠ 0 ∧ s2.height ≤ s2.lines.length + (if tokens.isEmpty then 0 else 1) then
      let p := truncateTokens s2 tokens overflow
      { p.1 with lines := p.1.lines ++ [p.2] }
    else { s2 with lines := s2.lines ++ [tokens] }

/-- TokenRenderer._MergeOrAddToken: merge into the previous run of the
same type, with the special handling of an empty Section header. -/
def mergeOrAddToken (s : RState) (text : List Char) (tt : StyleTag) : RState :=
  if text = [] then s
  else
    match s.tokens.getLast? with
    | none => { s with tokens := s.tokens ++ [(tt, text)] }
    | some (lt, ltext) =>
      if lt ≠ tt then { s with tokens := s.tokens ++ [(tt, text)] }
      else if lt = StyleTag.Section then
        if leadSpaces ltext = leadSpaces text then
          { s with tokens := s.tokens.dropLast ++ [(tt, text)] }
        else
          let t := newLine s none
          { t with tokens := [(tt, text)] }
      else { s with tokens := s.tokens.dropLast ++ [(tt, ltext ++ text)] }

/-- The marker-splitting loop of _AddToken: text is cut at every CSI byte,
the letter after each CSI byte selects the new token type (a missing or
unknown letter is the Python IndexError / KeyError), and each plain
segment is merged or appended. -/
def addTokenScan (s : RState) (tt : StyleTag) (seg : List Char) :
    List Char → Option RState
  | [] => some (mergeOrAddToken s seg.reverse tt)
  | c :: rest =>
    if c = CSI then
      let s := mergeOrAddToken s seg.reverse tt
      match rest with
      | [] => none
      | e :: rest2 =>
        match embellishments e with
        | none => none
        | some t2 => addTokenScan { s with currentTokenType := t2 } t2 [] rest2
    else addTokenScan s tt (c :: seg) rest

/-- TokenRenderer._AddToken. -/
def addToken (s : RState) (text : List Char) (tt : Option StyleTag) :
    Option RState :=
  let s :=
    if !text.isEmpty && !isSpaceStr text then { s with ignoreParagraph := false }
    else s
  let t := tt.getD s.currentTokenType
  if text.contains CSI then addTokenScan s t [] text
  else some (mergeOrAddToken s text t)

/-- TokenRenderer._AddDefinition: strip markers, split at the first '=',
emit Definition / Normal / Value runs and finalize the line. -/
def addDefinition (s : RState) (text : List Char) : Option RState := do
  let text := unFormat text
  let p := splitEq text
  let s ← addToken s p.1 (some StyleTag.Definition)
  let s ←
    match p.2 with
    | none => pure s
    | some r => do
      let s ← addToken s ['='] (some StyleTag.Normal)
      addToken s r (some StyleTag.Value)
  pure (newLine s none)

/-- TokenRenderer._Flush (self.Content() of the base renderer clears the
blank flag; modelled from the spec). -/
def flush (s : RState) : RState :=
  let s := { s with ignoreWidth := false }
  if s.fill ≠ 0 then
    let s := newLine s none
    let s := { s with blank := false }
    { s with fill := 0 }
  else s

/-- The increasing-level loop of _SetIndent, run fuel times (fuel is the
number of levels still to climb). -/
def setIndentUp (s : RState) (fuel : Nat) (ind : Int) (hang : Option Int) :
    RState :=
  match fuel with
  | 0 => s
  | n + 1 =>
    let prevLevel := s.level
    let lvl := prevLevel + 1
    let s := { s with level := lvl }
    let s :=
      if s.indent.length ≤ lvl then { s with indent := s.indent ++ [mkIndent true] }
      else s
    let prevE := s.indent.getD prevLevel defIndent
    let newInd := prevE.indent + ind
    let newInd :=
      if 1 < lvl ∧ prevE.hangingIndent = prevE.indent then newInd + 1 else newInd
    let newHang :=
      match hang with
      | none => newInd
      | some h => newInd - h
    let s := { s with indent := s.indent.set lvl ⟨newInd, newHang⟩ }
    setIndentUp s n ind hang

/-- TokenRenderer._SetIndent. -/
def setIndent (s : RState) (level : Nat) (ind : Int) (hang : Option Int) :
    RState :=
  if s.level < level then setIndentUp s (level - s.level) ind hang
  else
    let s := { s with level := level }
    match hang with
    | none => s
    | some h =>
      let e := s.indent.getD level defIndent
      { s with indent := s.indent.set level ⟨e.hangingIndent + h, e.hangingIndent⟩ }

/-- TokenRenderer.Example: an indented literal line, finalized at once. -/
def Example (s : RState) (line : List Char) : Option RState := do
  let fillv := (s.indent.getD s.level defIndent).indent + 4
  let s := { s with fill := fillv }
  let s ← addToken s (mkSpaces fillv ++ line) (some StyleTag.Normal)
  let s := newLine s none
  let s := { s with blank := false }
  pure { s with fill := 0 }

/-- The per-word body of TokenRenderer.Fill. -/
def fillWord (s : RState) (word : List Char) : Option RState := do
  let s ←
    if s.fill = 0 then
      let s :=
        if s.level ≠ 0 ∨ s.compact = false then
          { s with fill := (s.indent.getD s.level defIndent).indent - 1 }
        else { s with level := 0 }
      addToken s (mkSpaces s.fill) none
    else pure s
  let w : Int := displayWidth word
  let available := s.width - s.fill
  let s ←
    if available ≤ w + 1 ∧ s.ignoreWidth = false then do
      let s := newLine s (some (word, available))
      let s := { s with fill := (s.indent.getD s.level defIndent).indent }
      addToken s (mkSpaces s.fill) none
    else
      let s := { s with ignoreWidth := false }
      if s.fill ≠ 0 then do
        let s := { s with fill := s.fill + 1 }
        addToken s [' '] none
      else pure s
  let s := { s with fill := s.fill + w }
  addToken s word none

/-- The word loop of TokenRenderer.Fill. -/
def fillWords (s : RState) : List (List Char) → Option RState
  | [] => some s
  | w :: ws => do
    let s ← fillWord s w
    fillWords s ws

/-- TokenRenderer.Fill (self.Blank() of the base renderer sets the blank
flag; modelled from the spec). -/
def Fill (s : RState) (line : List Char) : Option RState :=
  let s := { s with blank := true }
  fillWords s (wordsOf line)

/-- TokenRenderer.Font (renderer.BOLD = 0, renderer.ITALIC = 1,
renderer.CODE = 2; modelled from the spec for the base renderer module):
toggle the attribute bit and return the 2-character marker. -/
def Font (s : RState) (attr : Option Nat) : RState × List Char :=
  let s :=
    match attr with
    | none => { s with font := 0 }
    | some a => { s with font := s.font ^^^ (1 <<< a) }
  let font := s.font &&& ((1 <<< 0) ||| (1 <<< 2) ||| (1 <<< 1))
  let e :=
    if font &&& (1 <<< 2) ≠ 0 then 'C'
    else if font = (1 <<< 0) ||| (1 <<< 1) then 'Z'
    else if font = (1 <<< 0) then 'B'
    else if font = (1 <<< 1) then 'I'
    else 'N'
  (s, [CSI, e])

/-- The state after TokenRenderer.Finish has flushed and reset the font. -/
def finishState (s : RState) : RState :=
  let s := flush s
  (Font s none).1

/-- TokenRenderer.Finish: flush, reset the font, return the lines. -/
def Finish (s : RState) : List (List TokenRun) :=
  (finishState s).lines

/-- TokenRenderer.Line: a paragraph separating line. -/
def LineOp (s : RState) : RState :=
  if s.ignoreParagraph then s
  else
    let s := flush s
    if s.blank = false then
      let s := { s with blank := true }
      newLine s none
    else s

/-- TokenRenderer.Heading. -/
def Heading (s : RState) (level : Nat) (heading : List Char) : Option RState :=
  if level = 1 ∧ endsWithL heading ['(', '1', ')'] = true then some s
  else do
    let s := flush s
    let s := LineOp s
    let s := (Font s none).1
    let s ←
      if 2 < level then do
        let ind : List Char := List.replicate (2 * (level - 2)) ' '
        let s ← addToken s ind none
        pure
          (if s.compact then
            { s with ignoreParagraph := true, fill := s.fill + (ind.length : Int) }
          else s)
      else pure s
    let s ← addToken s heading (some StyleTag.Section)
    let s :=
      if s.compact then
        { s with ignoreParagraph := true,
                 fill := s.fill + (displayWidth heading : Int) }
      else newLine s none
    let s := { s with blank := true }
    pure { s with level := 0, rows := [] }

/-- TokenRenderer.List: a bullet or definition list item. -/
def ListOp (s : RState) (level : Nat) (definition : Option (List Char))
    (isEnd : Bool) : Option RState := do
  let s := flush s
  if level = 0 then pure { s with level := 0 }
  else if isEnd then pure (setIndent s level 0 none)
  else
    match definition with
    | some d =>
      if d.isEmpty then
        let s := setIndent s level 1 (some 0)
        pure (LineOp s)
      else do
        let s := setIndent s level 4 (some 3)
        let s ← addToken s (mkSpaces (s.indent.getD level defIndent).hangingIndent) none
        addDefinition s d
    | none => do
      let ind : Int := if 1 < level then 2 else 4
      let s := setIndent s level ind (some 2)
      let s ← addToken s
          (mkSpaces (s.indent.getD level defIndent).hangingIndent ++
            bullets.getD ((level - 1) % bullets.length) []) none
      pure { s with fill := (s.indent.getD level defIndent).indent + 1,
                    ignoreWidth := true }

/-- TokenRenderer.TableLine. -/
def TableLine (s : RState) (line : List Char) (indent : Nat) : Option RState := do
  let s ← addToken s (List.replicate indent ' ' ++ line) none
  pure (newLine s none)

/-- Move up to n characters from the front of rem onto acc (acc is kept
reversed). -/
def takeN (acc rem : List Char) (n : Nat) : List Char × List Char :=
  match n, rem with
  | 0, _ => (acc, rem)
  | _ + 1, [] => (acc, [])
  | k + 1, c :: rest => takeN (c :: acc) rest k

/-- TokenRenderer._SkipNest on the remaining characters: consume a nested
bracket group, skipping embedded control sequences; acc collects the
consumed characters in reverse.  The fuel argument only bounds the loop
(each iteration consumes at least one character, so fuel = rem.length
never runs out; see skipNestL_fuel_irrelevant). -/
def skipNestL : Nat → List Char → List Char → Int → List Char × List Char
  | _, acc, [], _ => (acc, [])
  | 0, acc, rem, _ => (acc, rem)
  | fuel + 1, acc, c :: rest, nest =>
    if c = '[' ∨ c = '(' then skipNestL fuel (c :: acc) rest (nest + 1)
    else if c = ')' ∨ c = ']' then
      if nest - 1 ≤ 0 then (c :: acc, rest)
      else skipNestL fuel (c :: acc) rest (nest - 1)
    else if c = CSI then
      let n := max 1 (gcsLen rest)
      let p := takeN (c :: acc) rest n
      skipNestL fuel p.1 p.2 nest
    else skipNestL fuel (c :: acc) rest nest

/-- TokenRenderer._SkipNest, entered at the opening bracket. -/
def skipNest (acc rem : List Char) (nest : Int) : List Char × List Char :=
  skipNestL rem.length acc rem nest

/-- The group-extraction loop of TokenRenderer.Synopsis on the remaining
characters: acc is the current group (reversed), groups the finished
groups.  none models the IndexError of the peek at line[i + 1] when a
space run is followed by a '|' that ends the line. -/
def synGroupsAux : Nat → List Char → List (List Char) → List Char →
    Option (List (List Char))
  | _, acc, groups, [] =>
    some (if acc.isEmpty then groups else groups ++ [acc.reverse])
  | 0, _, _, _ :: _ => none
  | fuel + 1, acc, groups, c :: rest =>
    if c = ' ' then
      let sp := rest.takeWhile fun x => x == ' '
      let rest1 := rest.dropWhile fun x => x == ' '
      match rest1 with
      | '|' :: [] => none
      | '|' :: c2 :: r =>
        if c2 = ' ' then
          let sp2 := (c2 :: r).takeWhile fun x => x == ' '
          let rest3 := (c2 :: r).dropWhile fun x => x == ' '
          synGroupsAux fuel (sp2.reverse ++ '|' :: sp.reverse ++ c :: acc) groups rest3
        else synGroupsAux fuel [] (groups ++ [acc.reverse]) rest1
      | _ => synGroupsAux fuel [] (groups ++ [acc.reverse]) rest1
    else if c = '[' ∨ c = '(' then
      let p := skipNest acc (c :: rest) 0
      synGroupsAux fuel p.1 groups p.2
    else if c = CSI then
      let n := max 1 (gcsLen (c :: rest))
      let p := takeN acc (c :: rest) n
      synGroupsAux fuel p.1 groups p.2
    else synGroupsAux fuel (c :: acc) groups rest

/-- TokenRenderer.Synopsis group extraction over the whole line (leading
spaces skipped first).  Each loop iteration consumes at least one
character, so line.length fuel never runs out. -/
def synGroups (line : List Char) : Option (List (List Char)) :=
  synGroupsAux line.length [] [] (line.dropWhile fun x => x == ' ')

/-- The split delimiters of _SplitWideSynopsisGroup, in priority order. -/
def delims : List (List Char) := [[' ', '|', ' '], [' ', ':', ' '], [' '], [',']]

/-- The emission performed by _SplitWideSynopsisGroup when a split point
was accepted: flush a pending comma, break the line when not at the left
margin, then append the previous delimiter and the part, returning the
state and the new running width. -/
def synopsisBreakEmit (s : RState) (indentL rw : Int)
    (prevDelim part : List Char) : Option (RState × Int) := do
  let p1 ←
    if prevDelim = [','] then do
      let s ← addToken s prevDelim none
      pure (s, ([' '] : List Char))
    else pure (s, prevDelim)
  let p2 ←
    if rw ≠ indentL then do
      let rw2 := indentL + 2
      let s2 := newLine p1.1 none
      let s2 ← addToken s2 (mkSpaces rw2) none
      pure (s2, rw2)
    else pure (p1.1, rw)
  let s3 ← addToken p2.1 (p1.2 ++ part) none
  pure (s3, p2.2 + p1.2.length + displayWidth part)

/-- The delimiter-selection loop (the for statement) of
_SplitWideSynopsisGroup: returns the state after the emitted tokens, the
new running width, the new previous delimiter and the remaining group.
none on delimiter-list exhaustion (unreachable from delims, whose last
entry is the comma) or on a failed token append. -/
def chooseDelim (s : RState) (group : List Char) (indentL rw : Int)
    (prevDelim : List Char) :
    List (List Char) → Option (RState × Int × List Char × List Char)
  | [] => none
  | delim :: rest =>
    let q := partitionOn delim group
    let part := q.1
    let remainder := q.2.2
    let w : Int := displayWidth part
    if (s.width ≤ rw + prevDelim.length + w) ∨ (prevDelim ≠ [','] ∧ delim = [',']) then
      if delim ≠ [','] ∧ (s.width ≤ indentL + 2 + prevDelim.length + w) then
        chooseDelim s group indentL rw prevDelim rest
      else
        (synopsisBreakEmit s indentL rw prevDelim part).map
          fun p => (p.1, p.2, delim, remainder)
    else
      (addToken s (prevDelim ++ part) none).map
        fun s3 => (s3, rw + prevDelim.length + w, delim, remainder)

/-- Whether every delimiter in ds is nonempty and free of CSI bytes and of
embellishment letters (true of delims; needed for the split to preserve
marker well-formedness). -/
def goodDelims (ds : List (List Char)) : Bool :=
  ds.all fun d => !d.isEmpty && d.all fun c => !(c == CSI) && !(embellishments c).isSome

/-- The while loop of TokenRenderer._SplitWideSynopsisGroup; each
iteration strictly shrinks the group, so group.length fuel never runs
out. -/
def splitWideSynopsisGroupF : Nat → RState → List Char → Int → Int →
    List Char → Option (RState × Int)
  | _, s, [], _, rw, _ => some (s, rw)
  | 0, _, _ :: _, _, _, _ => none
  | fuel + 1, s, g :: gs, indentL, rw, prevDelim =>
    match chooseDelim s (g :: gs) indentL rw prevDelim delims with
    | none => none
    | some out => splitWideSynopsisGroupF fuel out.1 out.2.2.2 indentL out.2.1 out.2.2.1

/-- TokenRenderer._SplitWideSynopsisGroup (the previous delimiter starts
as a single space). -/
def splitWideSynopsisGroup (s : RState) (group : List Char)
    (indentL rw : Int) : Option (RState × Int) :=
  splitWideSynopsisGroupF group.length s group indentL rw [' ']

/-- The group-layout loop of TokenRenderer.Synopsis. -/
def synopsisLoop (s : RState) (indentL : Int) :
    List (List Char) → Int → Option RState
  | [], _ => some s
  | g :: rest, rw => do
    let w : Int := displayWidth g + 1
    if s.width ≤ rw + w then do
      let rw := indentL
      let s := newLine s none
      let s ← addToken s (mkSpaces rw) none
      if s.width ≤ rw + w then do
        let p ← splitWideSynopsisGroup s g indentL rw
        synopsisLoop p.1 indentL rest p.2
      else do
        let s ← addToken s (' ' :: g) none
        synopsisLoop s indentL rest (rw + w)
    else do
      let s ← addToken s (' ' :: g) none
      synopsisLoop s indentL rest (rw + w)

/-- TokenRenderer.Synopsis. -/
def Synopsis (s : RState) (line : List Char) : Option RState := do
  let groups ← synGroups line
  let indent0 := (s.indent.getD 0 defIndent).indent - 1
  let s ← addToken s (mkSpaces indent0) none
  let indentL := indent0 + 4
  let s ← synopsisLoop s indentL groups indent0
  let s := newLine s none
  pure (newLine s none)

/-- Every line of ls has run display width at most W. -/
def linesWithinWidth (W : Int) (ls : List (List TokenRun)) : Bool :=
  ls.all fun l => decide ((lineWidth l : Int) ≤ W)

/-- Each established indent level's indent is at least its parent's. -/
def monoIndentB (s : RState) : Bool :=
  (List.range s.level).all fun i =>
    decide ((s.indent.getD i defIndent).indent ≤ (s.indent.getD (i + 1) defIndent).indent)

/-- Run a sequence of _SetIndent calls with a fixed indent increment d;
each call supplies a target level and an optional hanging indent. -/
def runSetLevels (s : RState) (d : Int) (calls : List (Nat × Option Int)) : RState :=
  calls.foldl (fun t c => setIndent t c.1 d c.2) s

/-- A state transition frozen by truncation: the line list is unchanged
and the truncated flag stays set. -/
def Frozen (s t : RState) : Prop := t.lines = s.lines ∧ t.truncated = true

/-- A sample state whose truncated flag is already set, with one
finalized line. -/
def truncState0 : RState :=
  { initState 9 1 true with
    truncated := true,
    lines := [[(StyleTag.Normal, ['o', 'n', 'e']),
               (StyleTag.Truncated, ['.', '.', '.'])]] }

/-- The text contains no style-marker (CSI) byte. -/
def NoCSI (l : List Char) : Prop := ∀ c ∈ l, ¬ c = CSI

/-- Every buffered run is a Normal run with nonempty marker-free text. -/
def TokensOk (ts : List TokenRun) : Prop :=
  ∀ r ∈ ts, r.1 = StyleTag.Normal ∧ NoCSI r.2 ∧ r.2 ≠ []

/-- The state invariant maintained by Fill on a fresh compact session of
width W: either the renderer has truncated and every finalized line but
the last fits, or it has not and every finalized line fits, the run
buffer is well-formed and the fill column mirrors the buffer width with
one column of slack. -/
def FillInv (W : Int) (s : RState) : Prop :=
  (s.truncated = true ∧ linesWithinWidth W s.lines.dropLast = true) ∨
  (s.truncated = false ∧ s.width = W ∧ s.level = 0 ∧ s.compact = true ∧
   s.ignoreWidth = false ∧ s.currentTokenType = StyleTag.Normal ∧
   (s.indent.getD 0 defIndent).indent = 0 ∧ TokensOk s.tokens ∧
   linesWithinWidth W s.lines = true ∧
   (lineWidth s.tokens : Int) = s.fill ∧ 0 ≤ s.fill ∧ s.fill + 1 ≤ W)

/-- A concrete wrapped paragraph: the words of the C1 witness. -/
def fillDemoLine : List Char :=
  ['o', 'n', 'e', ' ', 't', 'w', 'o', ' ', 't', 'h', 'r', 'e', 'e']

/-- The state of the C1 witness session after its Fill call. -/
def fillDemoState : RState :=
  (Fill (initState 9 0 true) fillDemoLine).getD (initState 9 0 true)

/-- The tail of fillWord after the leading-margin handling: wrap or
separate, then place the word. -/
def fillWordRest (s : RState) (word : List Char) : Option RState := do
  let w : Int := displayWidth word
  let available := s.width - s.fill
  let s ←
    if available ≤ w + 1 ∧ s.ignoreWidth = false then do
      let s := newLine s (some (word, available))
      let s := { s with fill := (s.indent.getD s.level defIndent).indent }
      addToken s (mkSpaces s.fill) none
    else
      let s := { s with ignoreWidth := false }
      if s.fill ≠ 0 then do
        let s := { s with fill := s.fill + 1 }
        addToken s [' '] none
      else pure s
  let s := { s with fill := s.fill + w }
  addToken s word none

/-- The indent stack is long enough for every established level and the
stored indents are monotone up to the current level. -/
def IndentOk (s : RState) : Prop :=
  s.level + 1 ≤ s.indent.length ∧
  ∀ i, i < s.level →
    (s.indent.getD i defIndent).indent ≤
      (s.indent.getD (i + 1) defIndent).indent

/-- takeN consumes exactly the first n characters. -/
theorem takeN_snd : ∀ (r a : List Char) (n : Nat), (takeN a r n).2 = r.drop n := by
  intro r
  induction r with
  | nil => intro a n; cases n <;> simp [takeN]
  | cons x xs ih => intro a n; cases n <;> simp [takeN, ih]

/-- dropWhile never lengthens a list. -/
theorem dropWhile_len_le (p : Char → Bool) :
    ∀ l : List Char, (l.dropWhile p).length ≤ l.length := by
  intro l
  induction l with
  | nil => simp
  | cons c rest ih =>
    by_cases h : p c = true
    · simp only [List.dropWhile_cons, h, if_true, List.length_cons]
      omega
    · simp [List.dropWhile_cons, h]

/-- skipNestL never returns more than it was given. -/
theorem skipNestL_le (fuel : Nat) :
    ∀ (acc rem : List Char) (nest : Int),
      (skipNestL fuel acc rem nest).2.length ≤ rem.length := by
  induction fuel with
  | zero =>
    intro acc rem nest
    cases rem <;> simp [skipNestL]
  | succ k ih =>
    intro acc rem nest
    cases rem with
    | nil => simp [skipNestL]
    | cons c rest =>
      rw [skipNestL]
      by_cases h1 : c = '[' ∨ c = '('
      · simp only [h1, if_true, List.length_cons]
        have := ih (c :: acc) rest (nest + 1)
        omega
      · simp only [h1, if_false]
        by_cases h2 : c = ')' ∨ c = ']'
        · simp only [h2, if_true]
          by_cases h3 : nest - 1 ≤ 0
          · simp [h3]
          · simp only [h3, if_false, List.length_cons]
            have := ih (c :: acc) rest (nest - 1)
            omega
        · simp only [h2, if_false]
          by_cases h4 : c = CSI
          · subst h4
            rw [if_pos rfl]
            have hsnd : (takeN (CSI :: acc) rest (max 1 (gcsLen rest))).2 =
                rest.drop (max 1 (gcsLen rest)) := takeN_snd _ _ _
            have hle := ih (takeN (CSI :: acc) rest (max 1 (gcsLen rest))).1
              (takeN (CSI :: acc) rest (max 1 (gcsLen rest))).2 nest
            have hdl : (takeN (CSI :: acc) rest (max 1 (gcsLen rest))).2.length ≤
                rest.length := by
              rw [hsnd]
              simp only [List.length_drop]
              omega
            show (skipNestL k (takeN (CSI :: acc) rest (max 1 (gcsLen rest))).1
                (takeN (CSI :: acc) rest (max 1 (gcsLen rest))).2 nest).2.length ≤
                (CSI :: rest).length
            simp only [List.length_cons]
            omega
          · simp only [h4, if_false, List.length_cons]
            have := ih (c :: acc) rest nest
            omega

/-- With enough fuel, skipNestL does not depend on the exact fuel. -/
theorem skipNestL_fuel_irrelevant :
    ∀ (f1 : Nat) (rem : List Char) (f2 : Nat) (acc : List Char) (nest : Int),
      rem.length ≤ f1 → rem.length ≤ f2 →
      skipNestL f1 acc rem nest = skipNestL f2 acc rem nest := by
  intro f1
  induction f1 with
  | zero =>
    intro rem f2 acc nest h1 h2
    have : rem = [] := List.length_eq_zero.mp (Nat.le_zero.mp h1)
    subst this
    cases f2 <;> simp [skipNestL]
  | succ k ih =>
    intro rem f2 acc nest h1 h2
    cases rem with
    | nil => cases f2 <;> simp [skipNestL]
    | cons c rest =>
      cases f2 with
      | zero => simp at h2
      | succ k2 =>
        rw [skipNestL, skipNestL]
        have hr : rest.length ≤ k := by
          simp only [List.length_cons] at h1
          omega
        have hr2 : rest.length ≤ k2 := by
          simp only [List.length_cons] at h2
          omega
        by_cases ha : c = '[' ∨ c = '('
        · simp only [ha, if_true]
          exact ih rest k2 (c :: acc) (nest + 1) hr hr2
        · simp only [ha, if_false]
          by_cases hb : c = ')' ∨ c = ']'
          · simp only [hb, if_true]
            by_cases hc : nest - 1 ≤ 0
            · simp [hc]
            · simp only [hc, if_false]
              exact ih rest k2 (c :: acc) (nest - 1) hr hr2
          · simp only [hb, if_false]
            by_cases hd : c = CSI
            · subst hd
              rw [if_pos rfl, if_pos rfl]
              have hsnd : (takeN (CSI :: acc) rest (max 1 (gcsLen rest))).2 =
                  rest.drop (max 1 (gcsLen rest)) := takeN_snd _ _ _
              have hlen : (takeN (CSI :: acc) rest (max 1 (gcsLen rest))).2.length ≤
                  rest.length := by
                rw [hsnd]
                simp only [List.length_drop]
                omega
              exact ih (takeN (CSI :: acc) rest (max 1 (gcsLen rest))).2 k2
                (takeN (CSI :: acc) rest (max 1 (gcsLen rest))).1 nest
                (le_trans hlen hr) (le_trans hlen hr2)
            · simp only [hd, if_false]
              exact ih rest k2 (c :: acc) nest hr hr2

/-- Length bound used for the termination of the while loop of
_SplitWideSynopsisGroup. -/
theorem partitionOn_remainder_lt (delim : List Char) (hd : delim ≠ []) :
    ∀ g : List Char, g ≠ [] → (partitionOn delim g).2.2.length < g.length := by
  intro g
  induction g with
  | nil => intro h; exact absurd rfl h
  | cons c rest ih =>
    intro _
    by_cases hl : leadsWith delim (c :: rest) = true
    · simp only [partitionOn, hl, if_true]
      cases delim with
      | nil => exact absurd rfl hd
      | cons d ds =>
        simp only [List.drop, List.length_cons, List.length_drop]
        omega
    · simp only [partitionOn, hl, if_false, Bool.false_eq_true]
      simp only [List.length_cons]
      cases rest with
      | nil => simp [partitionOn]
      | cons c2 r2 =>
        have := ih (by simp)
        omega

/-- A successful chooseDelim always returns the partition remainder of one
of the delimiters tried. -/
theorem chooseDelim_remainder (s : RState) (group : List Char)
    (indentL rw : Int) (prevDelim : List Char) :
    ∀ (ds : List (List Char)) (out : RState × Int × List Char × List Char),
      chooseDelim s group indentL rw prevDelim ds = some out →
      ∃ d ∈ ds, out.2.2.2 = (partitionOn d group).2.2 := by
  intro ds
  induction ds with
  | nil => intro out h; simp [chooseDelim] at h
  | cons d rest ih =>
    intro out h
    rw [chooseDelim] at h
    split at h
    · split at h
      · obtain ⟨d', hd', hout⟩ := ih out h
        exact ⟨d', by simp [hd'], hout⟩
      · rw [Option.map_eq_some'] at h
        obtain ⟨p, hp, hout⟩ := h
        refine ⟨d, by simp, ?_⟩
        rw [← hout]
    · rw [Option.map_eq_some'] at h
      obtain ⟨p, hp, hout⟩ := h
      refine ⟨d, by simp, ?_⟩
      rw [← hout]

/-- With a nonempty group, a successful chooseDelim strictly shrinks it. -/
theorem chooseDelim_remainder_lt (s : RState) (group : List Char)
    (indentL rw : Int) (prevDelim : List Char) (ds : List (List Char))
    (hds : ∀ d ∈ ds, d ≠ []) (hg : group ≠ []) :
    ∀ out, chooseDelim s group indentL rw prevDelim ds = some out →
      out.2.2.2.length < group.length := by
  intro out h
  obtain ⟨d, hd, hout⟩ := chooseDelim_remainder s group indentL rw prevDelim ds out h
  rw [hout]
  exact partitionOn_remainder_lt d (hds d hd) group hg

/-- unFormat drops a CSI byte together with the character after it. -/
theorem unFormat_cons_csi (e : Char) (t : List Char) :
    unFormat (CSI :: e :: t) = unFormat t := by
  rw [unFormat]
  simp

/-- unFormat is the identity on marker-free text. -/
theorem unFormat_noCsi : ∀ t : List Char, ¬ t.contains CSI → unFormat t = t := by
  intro t
  induction t with
  | nil => intro _; rfl
  | cons c rest ih =>
    intro h
    have hc : c ≠ CSI := by
      intro he
      apply h
      simp only [List.contains_cons, Bool.or_eq_true]
      exact Or.inl (by simp [he])
    have hr : ¬ rest.contains CSI := by
      intro hrc
      apply h
      simp only [List.contains_cons, Bool.or_eq_true]
      exact Or.inr hrc
    rw [unFormat.eq_def]
    simp only [if_neg hc]
    rw [ih hr]

/-- C10: Heading(1, text) is a complete no-op when the text ends in
"(1)" (the man-page TH line): no lines are emitted, no runs buffered,
and every state component is left unchanged. -/
theorem c10_heading_man_page_noop (s : RState) (text : List Char)
    (h : endsWithL text ['(', '1', ')'] = true) :
    Heading s 1 text = some s := by
  rw [Heading]
  simp [h]

/-- Witness for C10 at a concrete man-page heading. -/
theorem c10_heading_man_page_noop_witness :
    endsWithL "GCLOUD(1)".toList ['(', '1', ')'] = true ∧
    Heading (initState 80 0 true) 1 "GCLOUD(1)".toList =
      some (initState 80 0 true) :=
  ⟨by decide, c10_heading_man_page_noop (initState 80 0 true) _ (by decide)⟩

/-- C5: for every font attribute toggle (and in every encoder state),
stripping markers from the 2-character marker followed by sentinel-free
text returns the text unchanged. -/
theorem c5_stripmarkers_roundtrip (s : RState) (attr : Option Nat)
    (text : List Char) (h : ¬ text.contains CSI) :
    unFormat ((Font s attr).2 ++ text) = text := by
  have hsnd : ∃ e, (Font s attr).2 = [CSI, e] := by
    cases attr <;> exact ⟨_, rfl⟩
  obtain ⟨e, he⟩ := hsnd
  rw [he]
  show unFormat (CSI :: e :: text) = text
  rw [unFormat_cons_csi]
  exact unFormat_noCsi text h

/-- Witness for C5: toggling bold (attribute 0) then stripping. -/
theorem c5_stripmarkers_roundtrip_witness :
    ¬ ("abc".toList.contains CSI = true) ∧
    unFormat ((Font (initState 80 0 true) (some 0)).2 ++ "abc".toList) =
      "abc".toList :=
  ⟨by decide, c5_stripmarkers_roundtrip (initState 80 0 true) (some 0) _ (by decide)⟩

/-- C7: on a fresh compact session of width 9, Fill("one two three")
followed by the flush in Finish emits exactly the two lines whose
concatenated run texts are "one two" and "three". -/
theorem c7_fill_wrap_scenario :
    (Fill (initState 9 0 true) "one two three".toList).map
        (fun s => (Finish s).map (fun l => (l.map Prod.snd).flatten)) =
      some ["one two".toList, "three".toList] := by
  decide

/-- C8: at width 9 and height 1, Fill("one two") buffers one line without
truncating; the second call Fill("three") finalizes that line, which
triggers truncation, and the final output is exactly one line whose last
run is the Truncated marker "...". -/
theorem c8_truncation_scenario :
    ((Fill (initState 9 1 true) "one two".toList).map RState.truncated =
      some false) ∧
    (((Fill (initState 9 1 true) "one two".toList).bind
          (fun s1 => Fill s1 "three".toList)).map
        (fun s2 => (s2.truncated, Finish s2)) =
      some (true, [[(StyleTag.Normal, "one tw".toList),
                    (StyleTag.Truncated, "...".toList)]])) :=
  ⟨by decide, by decide⟩

/-- C4 counterexample: List(1, definition="--flag=VALUE") on a fresh
session does not emit a line of exactly the three claimed runs - the line
also carries the leading hanging-indent space run. -/
theorem c4_counterexample :
    (ListOp (initState 80 0 true) 1 (some "--flag=VALUE".toList) false).map
        RState.lines ≠
      some [[(StyleTag.Definition, "--flag".toList),
             (StyleTag.Normal, "=".toList),
             (StyleTag.Value, "VALUE".toList)]] := by
  decide

/-- C4 amended: List(1, definition="--flag=VALUE") on a fresh session
emits one line of exactly four runs: the hanging-indent spaces (Normal,
" ") followed by (Definition, "--flag"), (Normal, "="), (Value,
"VALUE"). -/
theorem c4_definition_item_runs :
    (ListOp (initState 80 0 true) 1 (some "--flag=VALUE".toList) false).map
        RState.lines =
      some [[(StyleTag.Normal, " ".toList),
             (StyleTag.Definition, "--flag".toList),
             (StyleTag.Normal, "=".toList),
             (StyleTag.Value, "VALUE".toList)]] := by
  decide

/-- C1 counterexample: at width 3 a TableLine emits an output line of
display width 6 with no truncation involved, so not every non-truncated
output line fits the configured width. -/
theorem c1_counterexample :
    ((TableLine (initState 3 0 true) "abcdef".toList 0).map
        (fun t => ((Finish t).map lineWidth, t.truncated)) =
      some ([6], false)) ∧ ¬ ((6 : Int) ≤ 3) :=
  ⟨by decide, by decide⟩

/-- C6 counterexample: two AddToken calls with the Section tag on a fresh
buffer leave a single run holding only the second text - the first text
is discarded, not concatenated. -/
theorem c6_counterexample :
    ((addToken (initState 80 0 true) "x".toList (some StyleTag.Section)).bind
        (fun s1 => addToken s1 "y".toList (some StyleTag.Section))).map
        RState.tokens ≠
      some [(StyleTag.Section, "x".toList ++ "y".toList)] := by
  decide

/-- addToken on marker-free text reduces to a single merge-or-append. -/
theorem addToken_noCsi (s : RState) (text : List Char) (t : StyleTag)
    (hc : text.contains CSI = false) :
    addToken s text (some t) =
      some (mergeOrAddToken
        (if !text.isEmpty && !isSpaceStr text then
          { s with ignoreParagraph := false }
        else s) text t) := by
  have hni : ¬ (CSI ∈ text) := by simpa using hc
  rw [addToken]
  simp [hc, hni]

/-- mergeOrAddToken appends a fresh run when the buffer is empty or ends
with a different tag. -/
theorem mergeOrAddToken_append (s : RState) (text : List Char) (t : StyleTag)
    (hne : text ≠ [])
    (hlast : s.tokens.getLast?.map Prod.fst ≠ some t) :
    mergeOrAddToken s text t = { s with tokens := s.tokens ++ [(t, text)] } := by
  rw [mergeOrAddToken, if_neg hne]
  cases hgl : s.tokens.getLast? with
  | none => rfl
  | some p =>
    obtain ⟨lt, ltext⟩ := p
    have hlt : lt ≠ t := by
      intro he
      apply hlast
      rw [hgl, he]
      rfl
    simp [hlt]

/-- mergeOrAddToken merges into the previous run of the same non-Section
tag. -/
theorem mergeOrAddToken_merge (s : RState) (text ltext : List Char)
    (t : StyleTag) (hne : text ≠ []) (ht : t ≠ StyleTag.Section)
    (hgl : s.tokens.getLast? = some (t, ltext)) :
    mergeOrAddToken s text t =
      { s with tokens := s.tokens.dropLast ++ [(t, ltext ++ text)] } := by
  rw [mergeOrAddToken, if_neg hne, hgl]
  simp [ht]

/-- C6 amended: for every tag other than Section, two AddToken calls with
the same tag - on a buffer that is empty or ends with a run of a
different tag, with nonempty marker-free texts - leave exactly one new
run holding the concatenation. -/
theorem c6_merge_same_tag (s : RState) (t : StyleTag) (a b : List Char)
    (ht : t ≠ StyleTag.Section) (ha : a ≠ []) (hb : b ≠ [])
    (hca : a.contains CSI = false) (hcb : b.contains CSI = false)
    (hlast : s.tokens.getLast?.map Prod.fst ≠ some t) :
    ((addToken s a (some t)).bind fun s1 => addToken s1 b (some t)).map
        RState.tokens =
      some (s.tokens ++ [(t, a ++ b)]) := by
  rw [addToken_noCsi s a t hca]
  set s0 := (if !a.isEmpty && !isSpaceStr a then
      { s with ignoreParagraph := false } else s) with hs0
  have hs0tok : s0.tokens = s.tokens := by
    rw [hs0]
    split <;> rfl
  have h1 : mergeOrAddToken s0 a t = { s0 with tokens := s0.tokens ++ [(t, a)] } :=
    mergeOrAddToken_append s0 a t ha (by rw [hs0tok]; exact hlast)
  rw [h1]
  simp only [Option.some_bind']
  rw [addToken_noCsi { s0 with tokens := s0.tokens ++ [(t, a)] } b t hcb]
  set s2 := (if !b.isEmpty && !isSpaceStr b then
      { { s0 with tokens := s0.tokens ++ [(t, a)] } with ignoreParagraph := false }
    else { s0 with tokens := s0.tokens ++ [(t, a)] }) with hs2
  have hs2tok : s2.tokens = s0.tokens ++ [(t, a)] := by
    rw [hs2]
    split <;> rfl
  have hgl2 : s2.tokens.getLast? = some (t, a) := by
    rw [hs2tok]
    exact List.getLast?_concat _
  have h2 : mergeOrAddToken s2 b t =
      { s2 with tokens := s2.tokens.dropLast ++ [(t, a ++ b)] } :=
    mergeOrAddToken_merge s2 b a t hb ht hgl2
  rw [h2]
  simp only [Option.map_some', Option.some.injEq]
  show s2.tokens.dropLast ++ [(t, a ++ b)] = s.tokens ++ [(t, a ++ b)]
  rw [hs2tok, List.dropLast_concat, hs0tok]

/-- Witness for C6 amended on a fresh buffer with the Normal tag. -/
theorem c6_merge_same_tag_witness :
    (StyleTag.Normal ≠ StyleTag.Section) ∧
    ((addToken (initState 80 0 true) "ab".toList (some StyleTag.Normal)).bind
        fun s1 => addToken s1 "cd".toList (some StyleTag.Normal)).map
        RState.tokens =
      some ((initState 80 0 true).tokens ++
        [(StyleTag.Normal, "ab".toList ++ "cd".toList)]) :=
  ⟨by decide,
   c6_merge_same_tag (initState 80 0 true) StyleTag.Normal _ _ (by decide)
     (by decide) (by decide) (by decide) (by decide) (by decide)⟩

/-- Once truncated, _NewLine only clears the token buffer. -/
theorem newLine_truncated (s : RState) (o : Option (List Char × Int))
    (h : s.truncated = true) : newLine s o = { s with tokens := [] } := by
  rw [newLine]
  simp [h]

/-- Frozen composes. -/
theorem Frozen.trans {s t u : RState} (h1 : Frozen s t) (h2 : Frozen t u) :
    Frozen s u :=
  ⟨h2.1.trans h1.1, h2.2⟩

/-- Once truncated, mergeOrAddToken never touches the line list. -/
theorem frozen_mergeOrAddToken (s : RState) (text : List Char) (tt : StyleTag)
    (h : s.truncated = true) : Frozen s (mergeOrAddToken s text tt) := by
  by_cases hne : text = []
  · simp only [mergeOrAddToken, hne, if_pos]
    exact ⟨rfl, h⟩
  · rw [mergeOrAddToken, if_neg hne]
    cases hgl : s.tokens.getLast? with
    | none => exact ⟨rfl, h⟩
    | some p =>
      obtain ⟨lt, ltext⟩ := p
      by_cases h1 : lt ≠ tt
      · simp only [if_pos h1]
        exact ⟨rfl, h⟩
      · simp only [if_neg h1]
        by_cases h2 : lt = StyleTag.Section
        · simp only [if_pos h2]
          by_cases h3 : leadSpaces ltext = leadSpaces text
          · simp only [if_pos h3]
            exact ⟨rfl, h⟩
          · simp only [if_neg h3]
            rw [newLine_truncated s none h]
            exact ⟨rfl, h⟩
        · simp only [if_neg h2]
          exact ⟨rfl, h⟩

/-- Once truncated, the marker-splitting scan never touches the line
list. -/
theorem frozen_addTokenScan :
    ∀ (s : RState) (tt : StyleTag) (seg text : List Char),
      s.truncated = true → ∀ s', addTokenScan s tt seg text = some s' →
      Frozen s s' := by
  intro s tt seg text
  induction s, tt, seg, text using addTokenScan.induct with
  | case1 s tt seg =>
    intro ht s' h
    simp only [addTokenScan, Option.some.injEq] at h
    rw [← h]
    exact frozen_mergeOrAddToken s seg.reverse tt ht
  | case2 s tt seg =>
    intro ht s' h
    simp [addTokenScan] at h
  | case3 s tt seg c rest hx =>
    intro ht s' h
    simp [addTokenScan, hx] at h
  | case4 s tt seg m c rest t2 hx ih =>
    intro ht s' h
    simp only [addTokenScan, if_pos rfl, hx] at h
    have hm : Frozen s (mergeOrAddToken s seg.reverse tt) :=
      frozen_mergeOrAddToken s seg.reverse tt ht
    have hm2 : Frozen s
        { mergeOrAddToken s seg.reverse tt with currentTokenType := t2 } :=
      ⟨hm.1, hm.2⟩
    exact hm2.trans (ih hm2.2 s' h)
  | case5 s tt seg c rest hc ih =>
    intro ht s' h
    rw [addTokenScan, if_neg hc] at h
    exact ih ht s' h

/-- Once truncated, _AddToken never touches the line list. -/
theorem frozen_addToken (s : RState) (text : List Char)
    (tt : Option StyleTag) :
    ∀ s', addToken s text tt = some s' → s.truncated = true → Frozen s s' := by
  intro s' hs h
  rw [addToken] at hs
  set s0 := (if !text.isEmpty && !isSpaceStr text then
      { s with ignoreParagraph := false } else s) with hs0
  have h0 : Frozen s s0 := by
    rw [hs0]
    split
    · exact ⟨rfl, h⟩
    · exact ⟨rfl, h⟩
  split at hs
  · exact h0.trans (frozen_addTokenScan s0 _ [] text h0.2 s' hs)
  · cases hs
    exact h0.trans (frozen_mergeOrAddToken s0 text _ h0.2)

/-- setIndentUp changes only the level and the indent stack. -/
theorem setIndentUp_frozenFields (n : Nat) :
    ∀ (s : RState) (i : Int) (hg : Option Int),
      (setIndentUp s n i hg).lines = s.lines ∧
      (setIndentUp s n i hg).truncated = s.truncated ∧
      (setIndentUp s n i hg).tokens = s.tokens := by
  induction n with
  | zero => intro s i hg; exact ⟨rfl, rfl, rfl⟩
  | succ k ih =>
    intro s i hg
    simp only [setIndentUp]
    split
    · exact ih _ i hg
    · exact ih _ i hg

/-- setIndent changes only the level and the indent stack. -/
theorem setIndent_frozenFields (s : RState) (level : Nat) (i : Int)
    (hg : Option Int) :
    (setIndent s level i hg).lines = s.lines ∧
    (setIndent s level i hg).truncated = s.truncated ∧
    (setIndent s level i hg).tokens = s.tokens := by
  rw [setIndent]
  split
  · exact setIndentUp_frozenFields _ s i hg
  · cases hg with
    | none => exact ⟨rfl, rfl, rfl⟩
    | some hh => exact ⟨rfl, rfl, rfl⟩

/-- Once truncated, _Flush never touches the line list. -/
theorem frozen_flush (s : RState) (h : s.truncated = true) :
    Frozen s (flush s) := by
  rw [flush]
  split
  · rw [newLine_truncated { s with ignoreWidth := false } none h]
    exact ⟨rfl, h⟩
  · exact ⟨rfl, h⟩

/-- Font leaves every field except the font mask unchanged. -/
theorem font_fst_fields (s : RState) (attr : Option Nat) :
    (Font s attr).1.lines = s.lines ∧ (Font s attr).1.truncated = s.truncated ∧
    (Font s attr).1.tokens = s.tokens := by
  cases attr <;> exact ⟨rfl, rfl, rfl⟩

/-- Once truncated, Line() never touches the line list. -/
theorem frozen_LineOp (s : RState) (h : s.truncated = true) :
    Frozen s (LineOp s) := by
  rw [LineOp]
  split
  · exact ⟨rfl, h⟩
  · have hf := frozen_flush s h
    show Frozen s (if (flush s).blank = false then
      newLine { flush s with blank := true } none else flush s)
    split
    · rw [newLine_truncated { flush s with blank := true } none hf.2]
      exact ⟨hf.1, hf.2⟩
    · exact hf

/-- Once truncated, _AddDefinition never touches the line list. -/
theorem frozen_addDefinition (s : RState) (text : List Char)
    (h : s.truncated = true) :
    ∀ s', addDefinition s text = some s' → Frozen s s' := by
  intro s' hs
  rw [addDefinition] at hs
  cases hp : (splitEq (unFormat text)).2 with
  | none =>
    simp only [hp, Option.bind_eq_bind', Option.pure_def, Option.some_bind',
      Option.bind_eq_some', Option.some.injEq] at hs
    obtain ⟨s1, hs1, hout⟩ := hs
    have h1 : Frozen s s1 := frozen_addToken s _ _ s1 hs1 h
    rw [← hout, newLine_truncated s1 none h1.2]
    exact ⟨h1.1, h1.2⟩
  | some r =>
    simp only [hp, Option.bind_eq_bind', Option.pure_def, Option.some_bind',
      Option.bind_eq_some', Option.some.injEq] at hs
    obtain ⟨s1, hs1, s2, hs2, s3, hs3, hout⟩ := hs
    have h1 : Frozen s s1 := frozen_addToken s _ _ s1 hs1 h
    have h2 : Frozen s s2 := h1.trans (frozen_addToken s1 _ _ s2 hs2 h1.2)
    have h3 : Frozen s s3 := h2.trans (frozen_addToken s2 _ _ s3 hs3 h2.2)
    rw [← hout, newLine_truncated s3 none h3.2]
    exact ⟨h3.1, h3.2⟩

/-- Once truncated, Example never touches the line list. -/
theorem frozen_Example (s : RState) (line : List Char)
    (h : s.truncated = true) :
    ∀ s', Example s line = some s' → Frozen s s' := by
  intro s' hs
  rw [Example] at hs
  simp only [Option.bind_eq_bind', Option.pure_def, Option.bind_eq_some',
    Option.some.injEq] at hs
  obtain ⟨s1, hs1, hout⟩ := hs
  have h0 : Frozen s { s with fill := (s.indent.getD s.level defIndent).indent + 4 } :=
    ⟨rfl, h⟩
  have h1 : Frozen s s1 := h0.trans (frozen_addToken _ _ _ s1 hs1 h0.2)
  rw [← hout, newLine_truncated s1 none h1.2]
  exact ⟨h1.1, h1.2⟩

/-- Once truncated, TableLine never touches the line list. -/
theorem frozen_TableLine (s : RState) (line : List Char) (ind : Nat)
    (h : s.truncated = true) :
    ∀ s', TableLine s line ind = some s' → Frozen s s' := by
  intro s' hs
  rw [TableLine] at hs
  simp only [Option.bind_eq_bind', Option.pure_def, Option.bind_eq_some',
    Option.some.injEq] at hs
  obtain ⟨s1, hs1, hout⟩ := hs
  have h1 : Frozen s s1 := frozen_addToken s _ _ s1 hs1 h
  rw [← hout, newLine_truncated s1 none h1.2]
  exact ⟨h1.1, h1.2⟩

/-- Once truncated, one Fill word step never touches the line list. -/
theorem frozen_fillWord (s : RState) (word : List Char)
    (h : s.truncated = true) :
    ∀ s', fillWord s word = some s' → Frozen s s' := by
  intro s' hs
  rw [fillWord] at hs
  split at hs
  · simp only [Option.bind_eq_bind', Option.pure_def, Option.some_bind',
      Option.bind_eq_some', Option.some.injEq] at hs
    obtain ⟨s1, hs1, hrest⟩ := hs
    have hA : Frozen s (if s.level ≠ 0 ∨ s.compact = false then
        { s with fill := (s.indent.getD s.level defIndent).indent - 1 }
      else { s with level := 0 }) := by
      split <;> exact ⟨rfl, h⟩
    have h1 : Frozen s s1 := hA.trans (frozen_addToken _ _ _ s1 hs1 hA.2)
    split at hrest
    · simp only [Option.bind_eq_bind', Option.pure_def, Option.some_bind',
        Option.bind_eq_some', Option.some.injEq] at hrest
      obtain ⟨s2, hs2, hs3⟩ := hrest
      rw [newLine_truncated s1 _ h1.2] at hs2
      have hsteph2 := frozen_addToken _ _ _ s2 hs2 h1.2
      have h2 : Frozen s s2 := Frozen.trans ⟨h1.1, h1.2⟩ hsteph2
      have hstepx := frozen_addToken _ _ _ s' hs3 h2.2
      exact Frozen.trans ⟨h2.1, h2.2⟩ hstepx
    · split at hrest
      · simp only [Option.bind_eq_bind', Option.pure_def, Option.some_bind',
          Option.bind_eq_some', Option.some.injEq] at hrest
        obtain ⟨s2, hs2, hs3⟩ := hrest
        have hsteph2 := frozen_addToken _ _ _ s2 hs2 h1.2
        have h2 : Frozen s s2 := Frozen.trans ⟨h1.1, h1.2⟩ hsteph2
        have hstepx := frozen_addToken _ _ _ s' hs3 h2.2
        exact Frozen.trans ⟨h2.1, h2.2⟩ hstepx
      · have hstepx := frozen_addToken _ _ _ s' hrest h1.2
        exact Frozen.trans ⟨h1.1, h1.2⟩ hstepx
  · simp only [Option.bind_eq_bind', Option.pure_def, Option.some_bind'] at hs
    split at hs
    · simp only [Option.bind_eq_bind', Option.pure_def, Option.some_bind',
        Option.bind_eq_some', Option.some.injEq] at hs
      obtain ⟨s2, hs2, hs3⟩ := hs
      rw [newLine_truncated s _ h] at hs2
      have hsteph2 := frozen_addToken _ _ _ s2 hs2 h
      have h2 : Frozen s s2 := Frozen.trans ⟨rfl, h⟩ hsteph2
      have hstepx := frozen_addToken _ _ _ s' hs3 h2.2
      exact Frozen.trans ⟨h2.1, h2.2⟩ hstepx
    · simp only [Option.bind_eq_bind', Option.pure_def, Option.some_bind',
        Option.bind_eq_some', Option.some.injEq] at hs
      obtain ⟨s2, hs2, hs3⟩ := hs
      have hsteph2 := frozen_addToken _ _ _ s2 hs2 h
      have h2 : Frozen s s2 := Frozen.trans ⟨rfl, h⟩ hsteph2
      have hstepx := frozen_addToken _ _ _ s' hs3 h2.2
      exact Frozen.trans ⟨h2.1, h2.2⟩ hstepx

/-- Once truncated, the Fill word loop never touches the line list. -/
theorem frozen_fillWords : ∀ (ws : List (List Char)) (s : RState),
    s.truncated = true → ∀ s', fillWords s ws = some s' → Frozen s s' := by
  intro ws
  induction ws with
  | nil =>
    intro s h s' hs
    rw [fillWords] at hs
    cases hs
    exact ⟨rfl, h⟩
  | cons w ws ih =>
    intro s h s' hs
    rw [fillWords] at hs
    simp only [Option.bind_eq_bind', Option.bind_eq_some'] at hs
    obtain ⟨s1, hs1, hs2⟩ := hs
    have h1 := frozen_fillWord s w h s1 hs1
    exact h1.trans (ih s1 h1.2 s' hs2)

/-- Once truncated, Fill never touches the line list. -/
theorem frozen_Fill (s : RState) (line : List Char) (h : s.truncated = true) :
    ∀ s', Fill s line = some s' → Frozen s s' := by
  intro s' hs
  rw [Fill] at hs
  have h0 : Frozen s { s with blank := true } := ⟨rfl, h⟩
  exact h0.trans (frozen_fillWords (wordsOf line) _ h0.2 s' hs)

/-- Once truncated, the synopsis break emission never touches the line
list. -/
theorem frozen_synopsisBreakEmit (s : RState) (indentL rw : Int)
    (prevDelim part : List Char) (h : s.truncated = true) :
    ∀ out, synopsisBreakEmit s indentL rw prevDelim part = some out →
      Frozen s out.1 := by
  intro out hs
  rw [synopsisBreakEmit] at hs
  split at hs
  · simp only [Option.bind_eq_bind', Option.pure_def, Option.some_bind',
      Option.bind_eq_some', Option.some.injEq] at hs
    obtain ⟨sa, hsa, hrest⟩ := hs
    have h1 : Frozen s sa := frozen_addToken _ _ _ sa hsa h
    split at hrest
    · simp only [Option.bind_eq_bind', Option.pure_def, Option.some_bind',
        Option.bind_eq_some', Option.some.injEq] at hrest
      obtain ⟨sb, hsb, sc, hsc, hout⟩ := hrest
      rw [newLine_truncated sa _ h1.2] at hsb
      have hsteph2 := frozen_addToken _ _ _ sb hsb h1.2
      have h2 : Frozen s sb := Frozen.trans ⟨h1.1, h1.2⟩ hsteph2
      have h3 : Frozen s sc := h2.trans (frozen_addToken _ _ _ sc hsc h2.2)
      rw [← hout]
      exact h3
    · simp only [Option.bind_eq_bind', Option.pure_def, Option.some_bind',
        Option.bind_eq_some', Option.some.injEq] at hrest
      obtain ⟨sc, hsc, hout⟩ := hrest
      have h3 : Frozen s sc := h1.trans (frozen_addToken _ _ _ sc hsc h1.2)
      rw [← hout]
      exact h3
  · split at hs
    · simp only [Option.bind_eq_bind', Option.pure_def, Option.some_bind',
        Option.bind_eq_some', Option.some.injEq] at hs
      obtain ⟨sb, hsb, sc, hsc, hout⟩ := hs
      rw [newLine_truncated s _ h] at hsb
      have hsteph2 := frozen_addToken _ _ _ sb hsb h
      have h2 : Frozen s sb := Frozen.trans ⟨rfl, h⟩ hsteph2
      have h3 : Frozen s sc := h2.trans (frozen_addToken _ _ _ sc hsc h2.2)
      rw [← hout]
      exact h3
    · simp only [Option.bind_eq_bind', Option.pure_def, Option.some_bind',
        Option.bind_eq_some', Option.some.injEq] at hs
      obtain ⟨sc, hsc, hout⟩ := hs
      have h3 : Frozen s sc := frozen_addToken _ _ _ sc hsc h
      rw [← hout]
      exact h3

/-- Once truncated, the delimiter-selection loop never touches the line
list. -/
theorem frozen_chooseDelim : ∀ (ds : List (List Char)) (s : RState)
    (group : List Char) (indentL rw : Int) (prevDelim : List Char),
    s.truncated = true →
    ∀ out, chooseDelim s group indentL rw prevDelim ds = some out →
      Frozen s out.1 := by
  intro ds
  induction ds with
  | nil => intro s group iL rw pd h out hs; simp [chooseDelim] at hs
  | cons d rest ih =>
    intro s group iL rw pd h out hs
    rw [chooseDelim] at hs
    split at hs
    · split at hs
      · exact ih s group iL rw pd h out hs
      · rw [Option.map_eq_some'] at hs
        obtain ⟨p, hp, hout⟩ := hs
        have h1 := frozen_synopsisBreakEmit s iL rw pd _ h p hp
        rw [← hout]
        exact h1
    · rw [Option.map_eq_some'] at hs
      obtain ⟨p, hp, hout⟩ := hs
      have h1 := frozen_addToken s _ _ p hp h
      rw [← hout]
      exact h1

/-- Once truncated, the wide-group split loop never touches the line
list. -/
theorem frozen_splitWideF : ∀ (fuel : Nat) (group : List Char) (s : RState)
    (indentL rw : Int) (prevDelim : List Char),
    s.truncated = true →
    ∀ out, splitWideSynopsisGroupF fuel s group indentL rw prevDelim = some out →
      Frozen s out.1 := by
  intro fuel
  induction fuel with
  | zero =>
    intro group s iL rw pd h out hs
    cases group with
    | nil =>
      rw [splitWideSynopsisGroupF] at hs
      cases hs
      exact ⟨rfl, h⟩
    | cons g gs => simp [splitWideSynopsisGroupF] at hs
  | succ k ih =>
    intro group s iL rw pd h out hs
    cases group with
    | nil =>
      rw [splitWideSynopsisGroupF] at hs
      cases hs
      exact ⟨rfl, h⟩
    | cons g gs =>
      rw [splitWideSynopsisGroupF] at hs
      cases hc : chooseDelim s (g :: gs) iL rw pd delims with
      | none => rw [hc] at hs; cases hs
      | some o =>
        rw [hc] at hs
        have h1 := frozen_chooseDelim delims s (g :: gs) iL rw pd h o hc
        exact h1.trans (ih o.2.2.2 o.1 iL o.2.1 o.2.2.1 h1.2 out hs)

/-- Once truncated, the synopsis layout loop never touches the line
list. -/
theorem frozen_synopsisLoop : ∀ (groups : List (List Char)) (s : RState)
    (indentL rw : Int), s.truncated = true →
    ∀ s', synopsisLoop s indentL groups rw = some s' → Frozen s s' := by
  intro groups
  induction groups with
  | nil =>
    intro s iL rw h s' hs
    rw [synopsisLoop] at hs
    cases hs
    exact ⟨rfl, h⟩
  | cons g rest ih =>
    intro s iL rw h s' hs
    rw [synopsisLoop] at hs
    split at hs
    · simp only [Option.bind_eq_bind', Option.pure_def, Option.some_bind',
        Option.bind_eq_some', Option.some.injEq] at hs
      obtain ⟨s1, hs1, hrest⟩ := hs
      rw [newLine_truncated s _ h] at hs1
      have hsteph1 := frozen_addToken _ _ _ s1 hs1 h
      have h1 : Frozen s s1 := Frozen.trans ⟨rfl, h⟩ hsteph1
      split at hrest
      · simp only [Option.bind_eq_bind', Option.pure_def, Option.some_bind',
          Option.bind_eq_some', Option.some.injEq] at hrest
        obtain ⟨p, hp, hloop⟩ := hrest
        have h2 : Frozen s p.1 := h1.trans
          (frozen_splitWideF _ _ _ _ _ _ h1.2 p hp)
        exact h2.trans (ih p.1 iL p.2 h2.2 s' hloop)
      · simp only [Option.bind_eq_bind', Option.pure_def, Option.some_bind',
          Option.bind_eq_some', Option.some.injEq] at hrest
        obtain ⟨s2, hs2, hloop⟩ := hrest
        have h2 : Frozen s s2 := h1.trans (frozen_addToken _ _ _ s2 hs2 h1.2)
        exact h2.trans (ih s2 iL _ h2.2 s' hloop)
    · simp only [Option.bind_eq_bind', Option.pure_def, Option.some_bind',
        Option.bind_eq_some', Option.some.injEq] at hs
      obtain ⟨s2, hs2, hloop⟩ := hs
      have h2 : Frozen s s2 := frozen_addToken _ _ _ s2 hs2 h
      exact h2.trans (ih s2 iL _ h2.2 s' hloop)

/-- Once truncated, Synopsis never touches the line list. -/
theorem frozen_Synopsis (s : RState) (line : List Char)
    (h : s.truncated = true) :
    ∀ s', Synopsis s line = some s' → Frozen s s' := by
  intro s' hs
  rw [Synopsis] at hs
  simp only [Option.bind_eq_bind', Option.pure_def, Option.some_bind',
    Option.bind_eq_some', Option.some.injEq] at hs
  obtain ⟨groups, hg, s1, hs1, s2, hs2, hout⟩ := hs
  have h1 : Frozen s s1 := frozen_addToken _ _ _ s1 hs1 h
  have h2 : Frozen s s2 := h1.trans
    (frozen_synopsisLoop groups s1 _ _ h1.2 s2 hs2)
  rw [← hout, newLine_truncated (newLine s2 none) none
    (by rw [newLine_truncated s2 none h2.2]; exact h2.2),
    newLine_truncated s2 none h2.2]
  exact ⟨h2.1, h2.2⟩

/-- Once truncated, List() never touches the line list. -/
theorem frozen_ListOp (s : RState) (level : Nat) (d : Option (List Char))
    (isEnd : Bool) (h : s.truncated = true) :
    ∀ s', ListOp s level d isEnd = some s' → Frozen s s' := by
  intro s' hs
  rw [ListOp.eq_def] at hs
  have hf := frozen_flush s h
  split at hs
  · cases hs
    exact ⟨hf.1, hf.2⟩
  · split at hs
    · cases hs
      have hfi := setIndent_frozenFields (flush s) level 0 none
      exact ⟨hfi.1.trans hf.1, hfi.2.1.trans hf.2⟩
    · split at hs
      · split at hs
        · cases hs
          have hfi := setIndent_frozenFields (flush s) level 1 (some 0)
          have hset : Frozen s (setIndent (flush s) level 1 (some 0)) :=
            ⟨hfi.1.trans hf.1, hfi.2.1.trans hf.2⟩
          exact hset.trans (frozen_LineOp _ hset.2)
        · simp only [Option.bind_eq_bind', Option.pure_def, Option.some_bind',
            Option.bind_eq_some', Option.some.injEq] at hs
          obtain ⟨s1, hs1, hs2⟩ := hs
          have hfi := setIndent_frozenFields (flush s) level 4 (some 3)
          have hset : Frozen s (setIndent (flush s) level 4 (some 3)) :=
            ⟨hfi.1.trans hf.1, hfi.2.1.trans hf.2⟩
          have hstep1 := frozen_addToken _ _ _ s1 hs1 hset.2
          have h1 : Frozen s s1 := Frozen.trans ⟨hset.1, hset.2⟩ hstep1
          exact h1.trans (frozen_addDefinition s1 _ h1.2 s' hs2)
      · simp only [Option.bind_eq_bind', Option.pure_def, Option.some_bind',
          Option.bind_eq_some', Option.some.injEq] at hs
        obtain ⟨s1, hs1, hout⟩ := hs
        have hfi := setIndent_frozenFields (flush s) level
          (if 1 < level then 2 else 4) (some 2)
        have hset : Frozen s (setIndent (flush s) level
            (if 1 < level then 2 else 4) (some 2)) :=
          ⟨hfi.1.trans hf.1, hfi.2.1.trans hf.2⟩
        have hstep1 := frozen_addToken _ _ _ s1 hs1 hset.2
        have h1 : Frozen s s1 := Frozen.trans ⟨hset.1, hset.2⟩ hstep1
        rw [← hout]
        exact ⟨h1.1, h1.2⟩

/-- Once truncated, Heading never touches the line list. -/
theorem frozen_Heading (s : RState) (level : Nat) (heading : List Char)
    (h : s.truncated = true) :
    ∀ s', Heading s level heading = some s' → Frozen s s' := by
  intro s' hs
  rw [Heading] at hs
  by_cases hc : level = 1 ∧ endsWithL heading ['(', '1', ')'] = true
  · rw [if_pos hc] at hs
    cases hs
    exact ⟨rfl, h⟩
  · rw [if_neg hc] at hs
    have h1 : Frozen s (flush s) := frozen_flush s h
    have h2 : Frozen s (LineOp (flush s)) := h1.trans (frozen_LineOp _ h1.2)
    have hfb := font_fst_fields (LineOp (flush s)) none
    have h3 : Frozen s (Font (LineOp (flush s)) none).1 :=
      ⟨hfb.1.trans h2.1, hfb.2.1.trans h2.2⟩
    split at hs
    · simp only [Option.bind_eq_bind', Option.pure_def, Option.some_bind',
        Option.bind_eq_some', Option.some.injEq] at hs
      obtain ⟨c, hc2, b, hb, hout⟩ := hs
      have hstepc := frozen_addToken _ _ _ c hc2 h3.2
      have hC : Frozen s c := Frozen.trans ⟨h3.1, h3.2⟩ hstepc
      have hB : Frozen s b := by
        by_cases hcc : c.compact = true
        · rw [if_pos hcc] at hb
          have hstepb := frozen_addToken _ _ _ b hb hC.2
          exact Frozen.trans ⟨hC.1, hC.2⟩ hstepb
        · rw [if_neg hcc] at hb
          have hstepb := frozen_addToken _ _ _ b hb hC.2
          exact Frozen.trans ⟨hC.1, hC.2⟩ hstepb
      subst hout
      refine And.intro ?_ ?_
      · split
        · exact hB.1
        · rw [newLine_truncated b none hB.2]
          exact hB.1
      · split
        · exact hB.2
        · rw [newLine_truncated b none hB.2]
          exact hB.2
    · simp only [Option.bind_eq_bind', Option.pure_def, Option.some_bind',
        Option.bind_eq_some', Option.some.injEq] at hs
      obtain ⟨b, hb, hout⟩ := hs
      have hstepb := frozen_addToken _ _ _ b hb h3.2
      have hB : Frozen s b := Frozen.trans ⟨h3.1, h3.2⟩ hstepb
      subst hout
      refine And.intro ?_ ?_
      · split
        · exact hB.1
        · rw [newLine_truncated b none hB.2]
          exact hB.1
      · split
        · exact hB.2
        · rw [newLine_truncated b none hB.2]
          exact hB.2

/-- Once truncated, Finish returns exactly the lines already finalized. -/
theorem finish_truncated (s : RState) (h : s.truncated = true) :
    Finish s = s.lines := by
  rw [Finish, finishState]
  have hf := frozen_flush s h
  have hfb := font_fst_fields (flush s) none
  exact hfb.1.trans hf.1

/-- C2: once the truncated flag is true, every subsequent input event
(Fill, List, Example, Synopsis, TableLine, Heading, Line, Finish) leaves
the output line sequence unchanged: no further lines are ever appended. -/
theorem c2_truncated_no_further_output (s : RState)
    (h : s.truncated = true) (line heading : List Char) (level ind : Nat)
    (isEnd : Bool) (d : Option (List Char)) :
    ((Fill s line).map RState.lines).getD s.lines = s.lines ∧
    ((ListOp s level d isEnd).map RState.lines).getD s.lines = s.lines ∧
    ((Example s line).map RState.lines).getD s.lines = s.lines ∧
    ((Synopsis s line).map RState.lines).getD s.lines = s.lines ∧
    ((TableLine s line ind).map RState.lines).getD s.lines = s.lines ∧
    ((Heading s level heading).map RState.lines).getD s.lines = s.lines ∧
    (LineOp s).lines = s.lines ∧
    Finish s = s.lines := by
  refine ⟨?_, ?_, ?_, ?_, ?_, ?_, ?_, ?_⟩
  · cases hF : Fill s line with
    | none => rfl
    | some t => exact (frozen_Fill s line h t hF).1
  · cases hF : ListOp s level d isEnd with
    | none => rfl
    | some t => exact (frozen_ListOp s level d isEnd h t hF).1
  · cases hF : Example s line with
    | none => rfl
    | some t => exact (frozen_Example s line h t hF).1
  · cases hF : Synopsis s line with
    | none => rfl
    | some t => exact (frozen_Synopsis s line h t hF).1
  · cases hF : TableLine s line ind with
    | none => rfl
    | some t => exact (frozen_TableLine s line ind h t hF).1
  · cases hF : Heading s level heading with
    | none => rfl
    | some t => exact (frozen_Heading s level heading h t hF).1
  · exact (frozen_LineOp s h).1
  · exact finish_truncated s h

/-- Witness for C2 at a concrete truncated state. -/
theorem c2_truncated_no_further_output_witness :
    truncState0.truncated = true ∧
    (((Fill truncState0 ['o', 'n', 'e']).map RState.lines).getD
        truncState0.lines = truncState0.lines ∧
     ((ListOp truncState0 1 (some ['x', '=', 'y']) false).map
        RState.lines).getD truncState0.lines = truncState0.lines ∧
     ((Example truncState0 ['o', 'n', 'e']).map RState.lines).getD
        truncState0.lines = truncState0.lines ∧
     ((Synopsis truncState0 ['o', 'n', 'e']).map RState.lines).getD
        truncState0.lines = truncState0.lines ∧
     ((TableLine truncState0 ['o', 'n', 'e'] 2).map RState.lines).getD
        truncState0.lines = truncState0.lines ∧
     ((Heading truncState0 1 ['H']).map RState.lines).getD
        truncState0.lines = truncState0.lines ∧
     (LineOp truncState0).lines = truncState0.lines ∧
     Finish truncState0 = truncState0.lines) :=
  ⟨rfl, c2_truncated_no_further_output truncState0 rfl ['o', 'n', 'e']
    ['H'] 1 2 false (some ['x', '=', 'y'])⟩

/-- The first projection of an explicit indent entry. -/
theorem indentEntry_mk_indent (a b : Int) : (IndentEntry.mk a b).indent = a := rfl

/-- getD is unchanged by set at a different index. -/
theorem getD_set_ne (x e : IndentEntry) :
    ∀ (l : List IndentEntry) (j i : Nat), i ≠ j →
      (l.set j x).getD i e = l.getD i e := by
  intro l
  induction l with
  | nil => intro j i hij; cases j <;> rfl
  | cons a t ih =>
    intro j i hij
    cases j with
    | zero =>
      cases i with
      | zero => exact absurd rfl hij
      | succ k => rfl
    | succ jj =>
      cases i with
      | zero => rfl
      | succ k => exact ih jj k (fun hk => hij (by rw [hk]))

/-- getD after set at an in-range index returns the new element. -/
theorem getD_set_self (x e : IndentEntry) :
    ∀ (l : List IndentEntry) (j : Nat), j < l.length →
      (l.set j x).getD j e = x := by
  intro l
  induction l with
  | nil => intro j hj; exact absurd hj (Nat.not_lt_zero j)
  | cons a t ih =>
    intro j hj
    cases j with
    | zero => rfl
    | succ k => exact ih k (Nat.lt_of_succ_lt_succ hj)

/-- getD below the old length is unchanged by appending. -/
theorem getD_append_lt (x e : IndentEntry) :
    ∀ (l : List IndentEntry) (i : Nat), i < l.length →
      (l ++ [x]).getD i e = l.getD i e := by
  intro l
  induction l with
  | nil => intro i hi; exact absurd hi (Nat.not_lt_zero i)
  | cons a t ih =>
    intro i hi
    cases i with
    | zero => rfl
    | succ k => exact ih k (Nat.lt_of_succ_lt_succ hi)

/-- getD at the old length after appending returns the appended element. -/
theorem getD_append_len (x e : IndentEntry) :
    ∀ (l : List IndentEntry), (l ++ [x]).getD l.length e = x := by
  intro l
  induction l with
  | nil => rfl
  | cons a t ih => exact ih

/-- setIndentUp raises the level by exactly the fuel. -/
theorem setIndentUp_level (d : Int) (hg : Option Int) :
    ∀ (n : Nat) (s : RState), (setIndentUp s n d hg).level = s.level + n := by
  intro n
  induction n with
  | zero => intro s; rfl
  | succ k ih =>
    intro s
    simp only [setIndentUp]
    split <;> (rw [ih]; show s.level + 1 + k = s.level + (k + 1); omega)

/-- Each increasing-indent step keeps the stack long enough and the stored
indents monotone, for a non-negative increment. -/
theorem setIndentUp_indentOk (d : Int) (hd : 0 ≤ d) (hg : Option Int) :
    ∀ (n : Nat) (s : RState), IndentOk s → IndentOk (setIndentUp s n d hg) := by
  intro n
  induction n with
  | zero => intro s hP; exact hP
  | succ k ih =>
    intro s hP
    simp only [setIndentUp]
    apply ih
    split
    · refine ⟨?_, ?_⟩
      · show s.level + 1 + 1 ≤ ((s.indent ++ [mkIndent true]).set (s.level + 1) _).length
        rw [List.length_set, List.length_append]
        have := hP.1
        simp only [List.length_cons, List.length_nil]
        omega
      · intro i hi
        have hi' : i < s.level + 1 := hi
        have hlen := hP.1
        by_cases hcase : i < s.level
        · have hne1 : i ≠ s.level + 1 := by omega
          have hne2 : i + 1 ≠ s.level + 1 := by omega
          rw [getD_set_ne _ _ _ _ _ hne1, getD_set_ne _ _ _ _ _ hne2,
            getD_append_lt _ _ _ _ (by omega), getD_append_lt _ _ _ _ (by omega)]
          exact hP.2 i hcase
        · have hieq : i = s.level := by omega
          subst hieq
          have hne1 : s.level ≠ s.level + 1 := by omega
          rw [getD_set_ne _ _ _ _ _ hne1,
            getD_set_self _ _ _ _ (by rw [List.length_append]; simp only [List.length_cons, List.length_nil]; omega),
            getD_append_lt _ _ _ _ (by omega)]
          split
          · show (s.indent.getD s.level defIndent).indent ≤
              (s.indent.getD s.level defIndent).indent + d + 1
            omega
          · show (s.indent.getD s.level defIndent).indent ≤
              (s.indent.getD s.level defIndent).indent + d
            omega
    · refine ⟨?_, ?_⟩
      · show s.level + 1 + 1 ≤ (s.indent.set (s.level + 1) _).length
        rw [List.length_set]
        have := hP.1
        rename_i hnotle
        omega
      · intro i hi
        have hi' : i < s.level + 1 := hi
        have hlen := hP.1
        rename_i hnotle
        by_cases hcase : i < s.level
        · have hne1 : i ≠ s.level + 1 := by omega
          have hne2 : i + 1 ≠ s.level + 1 := by omega
          rw [getD_set_ne _ _ _ _ _ hne1, getD_set_ne _ _ _ _ _ hne2]
          exact hP.2 i hcase
        · have hieq : i = s.level := by omega
          subst hieq
          have hne1 : s.level ≠ s.level + 1 := by omega
          rw [getD_set_ne _ _ _ _ _ hne1,
            getD_set_self _ _ _ _ (by show s.level + 1 < s.indent.length; omega)]
          split
          · show (s.indent.getD s.level defIndent).indent ≤
              (s.indent.getD s.level defIndent).indent + d + 1
            omega
          · show (s.indent.getD s.level defIndent).indent ≤
              (s.indent.getD s.level defIndent).indent + d
            omega

/-- A _SetIndent call to a strictly higher level keeps the invariant and
lands exactly on the requested level. -/
theorem setIndent_up_indentOk (s : RState) (level : Nat) (d : Int)
    (hd : 0 ≤ d) (hg : Option Int) (hlt : s.level < level)
    (hP : IndentOk s) :
    IndentOk (setIndent s level d hg) ∧ (setIndent s level d hg).level = level := by
  rw [setIndent, if_pos hlt]
  refine ⟨setIndentUp_indentOk d hd hg _ s hP, ?_⟩
  rw [setIndentUp_level]
  omega

/-- A strictly increasing run of _SetIndent calls with a fixed
non-negative increment keeps the invariant. -/
theorem runSetLevels_indentOk (d : Int) (hd : 0 ≤ d) :
    ∀ (calls : List (Nat × Option Int)) (s : RState), IndentOk s →
      List.Chain (· < ·) s.level (calls.map Prod.fst) →
      IndentOk (runSetLevels s d calls) := by
  intro calls
  induction calls with
  | nil => intro s hP _; exact hP
  | cons c cs ih =>
    intro s hP hchain
    rw [List.map_cons] at hchain
    cases hchain with
    | cons hlt htail =>
      have h1 := setIndent_up_indentOk s c.1 d hd c.2 hlt hP
      have hstep : runSetLevels s d (c :: cs) =
          runSetLevels (setIndent s c.1 d c.2) d cs := rfl
      rw [hstep]
      apply ih _ h1.1
      rw [h1.2]
      exact htail

/-- The Boolean monotonicity check holds on any state with the
invariant. -/
theorem monoIndentB_of_indentOk (s : RState) (hP : IndentOk s) :
    monoIndentB s = true := by
  rw [monoIndentB, List.all_eq_true]
  intro i hi
  rw [List.mem_range] at hi
  exact decide_eq_true (hP.2 i hi)

/-- C9: for every strictly increasing sequence of level calls with a
fixed non-negative indent increment, the indent stored at each
established level is at least the indent of its parent level. -/
theorem c9_indent_monotone (W : Int) (H : Nat) (c : Bool) (d : Int)
    (hd : 0 ≤ d) (calls : List (Nat × Option Int))
    (hinc : List.Chain (· < ·) 0 (calls.map Prod.fst)) :
    monoIndentB (runSetLevels (initState W H c) d calls) = true := by
  apply monoIndentB_of_indentOk
  apply runSetLevels_indentOk d hd calls (initState W H c)
  · exact ⟨Nat.le_refl 1, fun i hi => absurd hi (Nat.not_lt_zero i)⟩
  · exact hinc

/-- Witness for C9 at a concrete call sequence. -/
theorem c9_indent_monotone_witness :
    (0 : Int) ≤ 2 ∧
    List.Chain (· < ·) 0
      (([(1, none), (3, some 2)] : List (Nat × Option Int)).map Prod.fst) ∧
    monoIndentB (runSetLevels (initState 24 0 true) 2
      ([(1, none), (3, some 2)] : List (Nat × Option Int))) = true :=
  ⟨by decide,
    List.Chain.cons (by decide) (List.Chain.cons (by decide) List.Chain.nil),
    c9_indent_monotone 24 0 true 2 (by decide)
      ([(1, none), (3, some 2)] : List (Nat × Option Int))
      (List.Chain.cons (by decide) (List.Chain.cons (by decide)
        List.Chain.nil))⟩

/-- Marker-free text has a false contains test. -/
theorem noCSI_contains (l : List Char) (h : NoCSI l) :
    l.contains CSI = false := by
  simp only [List.contains_eq_any_beq, List.any_eq_false, beq_iff_eq]
  intro c hc
  exact fun he => h c hc (by rw [he])

/-- Marker-freeness passes to sublists. -/
theorem noCSI_of_sublist (a b : List Char) (hs : List.Sublist a b)
    (h : NoCSI b) : NoCSI a :=
  fun c hc => h c (hs.mem hc)

/-- Marker-freeness of an append, from both halves. -/
theorem noCSI_append (a b : List Char) (ha : NoCSI a) (hb : NoCSI b) :
    NoCSI (a ++ b) := by
  intro c hc
  rcases List.mem_append.mp hc with h | h
  · exact ha c h
  · exact hb c h

/-- Marker-freeness of a reversal. -/
theorem noCSI_reverse (a : List Char) (ha : NoCSI a) : NoCSI a.reverse :=
  fun c hc => ha c (List.mem_reverse.mp hc)

/-- A space run is marker-free. -/
theorem noCSI_mkSpaces (n : Int) : NoCSI (mkSpaces n) := by
  intro c hc
  rw [List.eq_of_mem_replicate hc]
  intro he
  exact absurd (congrArg Char.toNat he) (by decide)

/-- The moved characters of takeN come from the accumulator or the
remainder. -/
theorem takeN_fst_mem :
    ∀ (r a : List Char) (n : Nat) (x : Char), x ∈ (takeN a r n).1 →
      x ∈ a ∨ x ∈ r := by
  intro r
  induction r with
  | nil =>
    intro a n x hx
    cases n with
    | zero => exact Or.inl hx
    | succ k => exact Or.inl hx
  | cons c rest ih =>
    intro a n x hx
    cases n with
    | zero => exact Or.inl hx
    | succ k =>
      rcases ih (c :: a) k x hx with hca | hr
      · rcases List.mem_cons.mp hca with he | ha
        · exact Or.inr (List.mem_cons.mpr (Or.inl he))
        · exact Or.inl ha
      · exact Or.inr (List.mem_cons.mpr (Or.inr hr))

/-- The part before the delimiter is made of characters of the group. -/
theorem partitionOn_fst_mem (delim : List Char) :
    ∀ (g : List Char) (x : Char), x ∈ (partitionOn delim g).1 → x ∈ g := by
  intro g
  induction g with
  | nil => intro x hx; exact absurd hx (List.not_mem_nil x)
  | cons c rest ih =>
    intro x hx
    by_cases hl : leadsWith delim (c :: rest) = true
    · simp only [partitionOn, hl, if_true] at hx
      exact absurd hx (List.not_mem_nil x)
    · simp only [partitionOn, hl, if_false, Bool.false_eq_true] at hx
      rcases List.mem_cons.mp hx with he | hp
      · exact List.mem_cons.mpr (Or.inl he)
      · exact List.mem_cons.mpr (Or.inr (ih x hp))

/-- The remainder after the delimiter is made of characters of the
group. -/
theorem partitionOn_remainder_mem (delim : List Char) :
    ∀ (g : List Char) (x : Char), x ∈ (partitionOn delim g).2.2 → x ∈ g := by
  intro g
  induction g with
  | nil => intro x hx; exact absurd hx (List.not_mem_nil x)
  | cons c rest ih =>
    intro x hx
    by_cases hl : leadsWith delim (c :: rest) = true
    · simp only [partitionOn, hl, if_true] at hx
      exact (List.drop_sublist delim.length (c :: rest)).mem hx
    · simp only [partitionOn, hl, if_false, Bool.false_eq_true] at hx
      exact List.mem_cons.mpr (Or.inr (ih x hx))

/-- The unconsumed remainder of the nest skipper is a suffix of its
input. -/
theorem skipNestL_suffix :
    ∀ (fuel : Nat) (acc rem : List Char) (nest : Int),
      (skipNestL fuel acc rem nest).2 <:+ rem := by
  intro fuel
  induction fuel with
  | zero =>
    intro acc rem nest
    cases rem with
    | nil => exact List.nil_suffix
    | cons c rest => exact List.suffix_refl (c :: rest)
  | succ k ih =>
    intro acc rem nest
    cases rem with
    | nil => exact List.nil_suffix
    | cons c rest =>
      rw [skipNestL]
      split
      · exact (ih _ rest _).trans (List.suffix_cons c rest)
      · split
        · split
          · exact List.suffix_cons c rest
          · exact (ih _ rest _).trans (List.suffix_cons c rest)
        · split
          · simp only [takeN_snd]
            exact ((ih _ _ _).trans
              (List.drop_suffix _ rest)).trans (List.suffix_cons c rest)
          · exact (ih _ rest _).trans (List.suffix_cons c rest)

/-- The accumulated characters of the nest skipper come from the
accumulator or the input. -/
theorem skipNestL_fst_mem :
    ∀ (fuel : Nat) (acc rem : List Char) (nest : Int) (x : Char),
      x ∈ (skipNestL fuel acc rem nest).1 → x ∈ acc ∨ x ∈ rem := by
  intro fuel
  induction fuel with
  | zero =>
    intro acc rem nest x hx
    cases rem with
    | nil => exact Or.inl hx
    | cons c rest => exact Or.inl hx
  | succ k ih =>
    intro acc rem nest x hx
    cases rem with
    | nil => exact Or.inl hx
    | cons c rest =>
      rw [skipNestL] at hx
      split at hx
      · rcases ih _ rest _ x hx with hca | hr
        · rcases List.mem_cons.mp hca with he | ha
          · exact Or.inr (List.mem_cons.mpr (Or.inl he))
          · exact Or.inl ha
        · exact Or.inr (List.mem_cons.mpr (Or.inr hr))
      · split at hx
        · split at hx
          · rcases List.mem_cons.mp hx with he | ha
            · exact Or.inr (List.mem_cons.mpr (Or.inl he))
            · exact Or.inl ha
          · rcases ih _ rest _ x hx with hca | hr
            · rcases List.mem_cons.mp hca with he | ha
              · exact Or.inr (List.mem_cons.mpr (Or.inl he))
              · exact Or.inl ha
            · exact Or.inr (List.mem_cons.mpr (Or.inr hr))
        · split at hx
          · simp only [takeN_snd] at hx
            rcases ih _ _ _ x hx with hta | hr
            · rcases takeN_fst_mem rest (c :: acc) _ x hta with hca | hr2
              · rcases List.mem_cons.mp hca with he | ha
                · exact Or.inr (List.mem_cons.mpr (Or.inl he))
                · exact Or.inl ha
              · exact Or.inr (List.mem_cons.mpr (Or.inr hr2))
            · exact Or.inr (List.mem_cons.mpr (Or.inr
                ((List.drop_sublist _ rest).mem hr)))
          · rcases ih _ rest _ x hx with hca | hr
            · rcases List.mem_cons.mp hca with he | ha
              · exact Or.inr (List.mem_cons.mpr (Or.inl he))
              · exact Or.inl ha
            · exact Or.inr (List.mem_cons.mpr (Or.inr hr))

/-- One entered step of the nest skipper consumes at least the opening
character. -/
theorem skipNestL_cons_le (fuel : Nat) (acc : List Char) (c : Char)
    (rest : List Char) (nest : Int) :
    (skipNestL (fuel + 1) acc (c :: rest) nest).2.length ≤ rest.length := by
  rw [skipNestL]
  split
  · exact skipNestL_le fuel _ rest _
  · split
    · split
      · exact Nat.le_refl rest.length
      · exact skipNestL_le fuel _ rest _
    · split
      · simp only [takeN_snd]
        exact (skipNestL_le fuel _ _ _).trans
          (by rw [List.length_drop]; omega)
      · exact skipNestL_le fuel _ rest _

/-- A nonempty suffix ends in the same character as the whole list. -/
theorem getLast_of_suffix :
    ∀ (pre l : List Char), l ≠ [] → (pre ++ l).getLast? = l.getLast? := by
  intro pre
  induction pre with
  | nil => intro l _; rfl
  | cons a t ih =>
    intro l hne
    rw [List.cons_append]
    cases hc : t ++ l with
    | nil =>
      rcases List.append_eq_nil.mp hc with ⟨_, hl⟩
      exact absurd hl hne
    | cons b bs =>
      rw [List.getLast?_cons_cons, ← hc, ih l hne]

/-- A suffix cannot end in an alternation bar if the whole list does
not. -/
theorem getLast_ne_of_suffix (l rem : List Char) (hs : l <:+ rem)
    (h : rem.getLast? ≠ some '|') : l.getLast? ≠ some '|' := by
  by_cases hne : l = []
  · subst hne
    simp
  · obtain ⟨pre, hpre⟩ := hs
    subst hpre
    rw [← getLast_of_suffix pre l hne]
    exact h

/-- Group extraction succeeds and yields marker-free groups on any
marker-free input not ending in an alternation bar. -/
theorem synGroupsAux_some :
    ∀ (fuel : Nat) (rem acc : List Char) (groups : List (List Char)),
      rem.length ≤ fuel → NoCSI rem → NoCSI acc →
      (∀ g ∈ groups, NoCSI g) → rem.getLast? ≠ some '|' →
      ∃ gs, synGroupsAux fuel acc groups rem = some gs ∧
        ∀ g ∈ gs, NoCSI g := by
  intro fuel
  induction fuel with
  | zero =>
    intro rem acc groups hlen hrem hacc hgroups hlast
    cases rem with
    | nil =>
      refine ⟨_, rfl, ?_⟩
      split
      · exact hgroups
      · intro g hg
        rcases List.mem_append.mp hg with hg1 | hg2
        · exact hgroups g hg1
        · rw [List.mem_singleton.mp hg2]
          exact noCSI_reverse acc hacc
    | cons c rest => exact absurd hlen (Nat.not_succ_le_zero _)
  | succ k ih =>
    intro rem acc groups hlen hrem hacc hgroups hlast
    cases rem with
    | nil =>
      refine ⟨_, rfl, ?_⟩
      split
      · exact hgroups
      · intro g hg
        rcases List.mem_append.mp hg with hg1 | hg2
        · exact hgroups g hg1
        · rw [List.mem_singleton.mp hg2]
          exact noCSI_reverse acc hacc
    | cons c rest =>
      have hlen' : rest.length + 1 ≤ k + 1 := hlen
      have hcne : ¬ c = CSI := hrem c (List.mem_cons_self c rest)
      have hrest : NoCSI rest :=
        fun x hx => hrem x (List.mem_cons.mpr (Or.inr hx))
      rw [synGroupsAux]
      by_cases hsp : c = ' '
      · rw [if_pos hsp]
        simp only []
        have hsfx1 : rest.dropWhile (fun x => x == ' ') <:+ c :: rest :=
          (List.dropWhile_suffix _).trans (List.suffix_cons c rest)
        have hlen1 : (rest.dropWhile (fun x => x == ' ')).length ≤
            rest.length := dropWhile_len_le _ rest
        have hgroups2 : ∀ g ∈ groups ++ [acc.reverse], NoCSI g := by
          intro g hg
          rcases List.mem_append.mp hg with hg1 | hg2
          · exact hgroups g hg1
          · rw [List.mem_singleton.mp hg2]
            exact noCSI_reverse acc hacc
        cases hre : rest.dropWhile (fun x => x == ' ') with
        | nil =>
          obtain ⟨gs, hgs, hP⟩ := ih [] [] (groups ++ [acc.reverse])
            (Nat.zero_le k) (fun x hx => absurd hx (List.not_mem_nil x))
            (fun x hx => absurd hx (List.not_mem_nil x)) hgroups2 (by simp)
          exact ⟨gs, hgs, hP⟩
        | cons c1 r1 =>
          rw [hre] at hsfx1
          split
          · rename_i he
            rw [he] at hsfx1
            obtain ⟨pre, hpre⟩ := hsfx1
            rw [← hpre] at hlast
            rw [getLast_of_suffix pre ['|'] (by simp)] at hlast
            exact absurd rfl hlast
          · rename_i c2 r he
            by_cases hc2 : c2 = ' '
            · rw [if_pos hc2]
              have hsfx2 : (c2 :: r).dropWhile (fun x => x == ' ') <:+
                  c :: rest :=
                (List.dropWhile_suffix _).trans
                  ((List.suffix_cons '|' (c2 :: r)).trans (he ▸ hsfx1))
              have hlenr : r.length + 2 ≤ rest.length := by
                have h0 := hlen1
                rw [hre, he] at h0
                simpa using h0
              have hlen2 : ((c2 :: r).dropWhile
                  (fun x => x == ' ')).length ≤ r.length + 1 := by
                have h0 := dropWhile_len_le (fun x => x == ' ') (c2 :: r)
                simpa using h0
              have hnacc : NoCSI
                  (((c2 :: r).takeWhile fun x => x == ' ').reverse ++
                    '|' :: (rest.takeWhile fun x => x == ' ').reverse ++
                    c :: acc) := by
                intro x hx
                simp only [List.mem_append, List.mem_cons,
                  List.mem_reverse] at hx
                rcases hx with (h1 | h2 | h3) | h4 | h5
                · have hx' := List.mem_takeWhile_imp h1
                  rw [beq_iff_eq] at hx'
                  rw [hx']
                  decide
                · rw [h2]
                  decide
                · have hx' := List.mem_takeWhile_imp h3
                  rw [beq_iff_eq] at hx'
                  rw [hx']
                  decide
                · rw [h4, hsp]
                  decide
                · exact hacc x h5
              have hnr : NoCSI ((c2 :: r).dropWhile fun x => x == ' ') :=
                noCSI_of_sublist _ _ hsfx2.sublist hrem
              have hlast2 : ((c2 :: r).dropWhile
                  fun x => x == ' ').getLast? ≠ some '|' :=
                getLast_ne_of_suffix _ _ hsfx2 hlast
              obtain ⟨gs, hgs, hP⟩ := ih _ _ groups (by omega)
                hnr hnacc hgroups hlast2
              exact ⟨gs, hgs, hP⟩
            · rw [if_neg hc2]
              have hnr : NoCSI (c1 :: r1) :=
                noCSI_of_sublist _ _ hsfx1.sublist hrem
              have hlast2 : (c1 :: r1).getLast? ≠ some '|' :=
                getLast_ne_of_suffix _ _ hsfx1 hlast
              have hlenr : (c1 :: r1).length ≤ rest.length := by
                rw [← hre]
                exact hlen1
              obtain ⟨gs, hgs, hP⟩ := ih (c1 :: r1) [] _ (by omega) hnr
                (fun x hx => absurd hx (List.not_mem_nil x))
                hgroups2 hlast2
              exact ⟨gs, hgs, hP⟩
          · have hnr : NoCSI (c1 :: r1) :=
              noCSI_of_sublist _ _ hsfx1.sublist hrem
            have hlast2 : (c1 :: r1).getLast? ≠ some '|' :=
              getLast_ne_of_suffix _ _ hsfx1 hlast
            have hlenr : (c1 :: r1).length ≤ rest.length := by
              rw [← hre]
              exact hlen1
            obtain ⟨gs, hgs, hP⟩ := ih (c1 :: r1) [] _ (by omega) hnr
              (fun x hx => absurd hx (List.not_mem_nil x))
              hgroups2 hlast2
            exact ⟨gs, hgs, hP⟩
      · rw [if_neg hsp]
        by_cases hbr : c = '[' ∨ c = '('
        · rw [if_pos hbr]
          have hsk : (skipNestL (rest.length + 1) acc (c :: rest) 0).2.length ≤
              rest.length := skipNestL_cons_le rest.length acc c rest 0
          have hsfx : (skipNestL (rest.length + 1) acc (c :: rest) 0).2 <:+
              c :: rest := skipNestL_suffix _ acc (c :: rest) 0
          have hnr : NoCSI (skipNestL (rest.length + 1) acc (c :: rest) 0).2 :=
            noCSI_of_sublist _ _ hsfx.sublist hrem
          have hnacc : NoCSI (skipNestL (rest.length + 1) acc (c :: rest) 0).1 := by
            intro x hx
            rcases skipNestL_fst_mem _ acc (c :: rest) 0 x hx with ha | hr
            · exact hacc x ha
            · exact hrem x hr
          have hlast2 : (skipNestL (rest.length + 1) acc (c :: rest) 0).2.getLast? ≠
              some '|' := getLast_ne_of_suffix _ _ hsfx hlast
          obtain ⟨gs, hgs, hP⟩ := ih _ _ groups (by omega)
            hnr hnacc hgroups hlast2
          exact ⟨gs, hgs, hP⟩
        · rw [if_neg hbr, if_neg hcne]
          have hnr : NoCSI rest := hrest
          have hlast2 : rest.getLast? ≠ some '|' :=
            getLast_ne_of_suffix _ _ (List.suffix_cons c rest) hlast
          have hnacc : NoCSI (c :: acc) := by
            intro x hx
            rcases List.mem_cons.mp hx with he | ha
            · rw [he]; exact hcne
            · exact hacc x ha
          obtain ⟨gs, hgs, hP⟩ := ih rest (c :: acc) groups (by omega)
            hnr hnacc hgroups hlast2
          exact ⟨gs, hgs, hP⟩

/-- addToken succeeds on any marker-free text. -/
theorem addToken_ex (s : RState) (text : List Char) (tt : Option StyleTag)
    (h : NoCSI text) : ∃ s', addToken s text tt = some s' := by
  have hni : ¬ CSI ∈ text := fun hm => h CSI hm rfl
  rw [addToken]
  simp [hni]

/-- The bounded-membership form of marker-freeness, for deciding concrete
instances. -/
theorem noCSI_of_ball (l : List Char) (h : ∀ c ∈ l, ¬ c = CSI) :
    NoCSI l := h

/-- Every split delimiter is marker-free. -/
theorem delims_noCSI : ∀ d ∈ delims, NoCSI d := by
  have h : ∀ d ∈ delims, ∀ c ∈ d, ¬ c = CSI := by decide
  exact h

/-- The break emission succeeds on marker-free inputs. -/
theorem synopsisBreakEmit_ex (s : RState) (indentL rw0 : Int)
    (prevDelim part : List Char) (hd : NoCSI prevDelim) (hp : NoCSI part) :
    ∃ out, synopsisBreakEmit s indentL rw0 prevDelim part = some out := by
  rw [synopsisBreakEmit]
  by_cases h1 : prevDelim = [',']
  · obtain ⟨s1, hs1⟩ := addToken_ex s prevDelim none hd
    rw [if_pos h1, hs1]
    simp only [Option.bind_eq_bind', Option.pure_def, Option.some_bind']
    by_cases h2 : rw0 ≠ indentL
    · rw [if_pos h2]
      obtain ⟨s2, hs2⟩ := addToken_ex (newLine s1 none)
        (mkSpaces (indentL + 2)) none (noCSI_mkSpaces _)
      rw [hs2]
      simp only [Option.bind_eq_bind', Option.pure_def, Option.some_bind']
      obtain ⟨s3, hs3⟩ := addToken_ex s2 ([' '] ++ part) none
        (noCSI_append _ _ (noCSI_of_ball _ (by decide)) hp)
      rw [hs3]
      exact ⟨_, rfl⟩
    · rw [if_neg h2]
      obtain ⟨s3, hs3⟩ := addToken_ex s1 ([' '] ++ part) none
        (noCSI_append _ _ (noCSI_of_ball _ (by decide)) hp)
      rw [hs3]
      exact ⟨_, rfl⟩
  · rw [if_neg h1]
    simp only [Option.bind_eq_bind', Option.pure_def, Option.some_bind']
    by_cases h2 : rw0 ≠ indentL
    · rw [if_pos h2]
      obtain ⟨s2, hs2⟩ := addToken_ex (newLine s none)
        (mkSpaces (indentL + 2)) none (noCSI_mkSpaces _)
      rw [hs2]
      simp only [Option.bind_eq_bind', Option.pure_def, Option.some_bind']
      obtain ⟨s3, hs3⟩ := addToken_ex s2 (prevDelim ++ part) none
        (noCSI_append _ _ hd hp)
      rw [hs3]
      exact ⟨_, rfl⟩
    · rw [if_neg h2]
      obtain ⟨s3, hs3⟩ := addToken_ex s (prevDelim ++ part) none
        (noCSI_append _ _ hd hp)
      rw [hs3]
      exact ⟨_, rfl⟩

/-- The delimiter-selection loop succeeds whenever the delimiter list
ends with the comma, and passes marker-freeness to its outputs. -/
theorem chooseDelim_ex :
    ∀ (ds : List (List Char)) (s : RState) (group : List Char)
      (indentL rw0 : Int) (prevDelim : List Char),
      NoCSI group → NoCSI prevDelim → (∀ d ∈ ds, NoCSI d) →
      ds.getLast? = some [','] →
      ∃ out, chooseDelim s group indentL rw0 prevDelim ds = some out ∧
        NoCSI out.2.2.2 ∧ NoCSI out.2.2.1 := by
  intro ds
  induction ds with
  | nil =>
    intro s group indentL rw0 prevDelim hg hd hds hlast
    simp at hlast
  | cons d rest ih =>
    intro s group indentL rw0 prevDelim hg hd hds hlast
    have hpart : NoCSI (partitionOn d group).1 :=
      fun x hx => hg x (partitionOn_fst_mem d group x hx)
    have hrem : NoCSI (partitionOn d group).2.2 :=
      fun x hx => hg x (partitionOn_remainder_mem d group x hx)
    have hdn : NoCSI d := hds d (List.mem_cons_self d rest)
    rw [chooseDelim]
    by_cases h1 : (s.width ≤ rw0 + (prevDelim.length : Int) +
        (displayWidth (partitionOn d group).1 : Int)) ∨
        (prevDelim ≠ [','] ∧ d = [','])
    · rw [if_pos h1]
      by_cases h2 : d ≠ [','] ∧ (s.width ≤ indentL + 2 +
          (prevDelim.length : Int) +
          (displayWidth (partitionOn d group).1 : Int))
      · rw [if_pos h2]
        have hrne : rest ≠ [] := by
          intro hr
          rw [hr] at hlast
          simp at hlast
          exact h2.1 hlast
        have hlast2 : rest.getLast? = some [','] := by
          cases rest with
          | nil => exact absurd rfl hrne
          | cons r0 rs =>
            rw [← hlast, List.getLast?_cons_cons]
        obtain ⟨out, hout, ho1, ho2⟩ := ih s group indentL rw0 prevDelim
          hg hd (fun x hx => hds x (List.mem_cons.mpr (Or.inr hx))) hlast2
        exact ⟨out, hout, ho1, ho2⟩
      · rw [if_neg h2]
        obtain ⟨p, hp⟩ := synopsisBreakEmit_ex s indentL rw0 prevDelim
          (partitionOn d group).1 hd hpart
        rw [hp, Option.map_some']
        exact ⟨_, rfl, hrem, hdn⟩
    · rw [if_neg h1]
      obtain ⟨s3, hs3⟩ := addToken_ex s (prevDelim ++ (partitionOn d group).1)
        none (noCSI_append _ _ hd hpart)
      rw [hs3, Option.map_some']
      exact ⟨_, rfl, hrem, hdn⟩

/-- The wide-group splitting loop succeeds on marker-free input. -/
theorem splitWideF_ex :
    ∀ (fuel : Nat) (group : List Char) (s : RState) (indentL rw0 : Int)
      (prevDelim : List Char), group.length ≤ fuel → NoCSI group →
      NoCSI prevDelim →
      ∃ out, splitWideSynopsisGroupF fuel s group indentL rw0 prevDelim =
        some out := by
  intro fuel
  induction fuel with
  | zero =>
    intro group s indentL rw0 prevDelim hlen hg hd
    cases group with
    | nil => exact ⟨(s, rw0), rfl⟩
    | cons g gs => exact absurd hlen (Nat.not_succ_le_zero _)
  | succ k ih =>
    intro group s indentL rw0 prevDelim hlen hg hd
    cases group with
    | nil => exact ⟨(s, rw0), rfl⟩
    | cons g gs =>
      rw [splitWideSynopsisGroupF]
      obtain ⟨out, hout, ho1, ho2⟩ := chooseDelim_ex delims s (g :: gs)
        indentL rw0 prevDelim hg hd delims_noCSI (by decide)
      rw [hout]
      have hlt : out.2.2.2.length < (g :: gs).length :=
        chooseDelim_remainder_lt s (g :: gs) indentL rw0 prevDelim delims
          (by decide) (List.cons_ne_nil g gs) out hout
      have hlen' : (g :: gs).length ≤ k + 1 := hlen
      obtain ⟨o2, ho2'⟩ := ih out.2.2.2 out.1 indentL out.2.1 out.2.2.1
        (by omega) ho1 ho2
      exact ⟨o2, ho2'⟩

/-- The group-layout loop succeeds on marker-free groups. -/
theorem synopsisLoop_ex :
    ∀ (groups : List (List Char)) (s : RState) (indentL rw0 : Int),
      (∀ g ∈ groups, NoCSI g) →
      ∃ s', synopsisLoop s indentL groups rw0 = some s' := by
  intro groups
  induction groups with
  | nil => intro s indentL rw0 _; exact ⟨s, rfl⟩
  | cons g rest ih =>
    intro s indentL rw0 hgs
    have hgg : NoCSI g := hgs g (List.mem_cons_self g rest)
    have hrest : ∀ x ∈ rest, NoCSI x :=
      fun x hx => hgs x (List.mem_cons.mpr (Or.inr hx))
    have hsg : NoCSI (' ' :: g) := by
      intro x hx
      rcases List.mem_cons.mp hx with he | hm
      · rw [he]; decide
      · exact hgg x hm
    rw [synopsisLoop]
    simp only []
    by_cases h1 : s.width ≤ rw0 + ((displayWidth g : Int) + 1)
    · rw [if_pos h1]
      obtain ⟨s2, hs2⟩ := addToken_ex (newLine s none) (mkSpaces indentL)
        none (noCSI_mkSpaces _)
      rw [hs2]
      simp only [Option.bind_eq_bind', Option.pure_def, Option.some_bind']
      by_cases h2 : s2.width ≤ indentL + ((displayWidth g : Int) + 1)
      · rw [if_pos h2]
        obtain ⟨p, hp⟩ := splitWideF_ex g.length g s2 indentL indentL [' ']
          (Nat.le_refl _) hgg (noCSI_of_ball _ (by decide))
        have hp2 : splitWideSynopsisGroup s2 g indentL indentL = some p := hp
        rw [hp2]
        simp only [Option.bind_eq_bind', Option.pure_def, Option.some_bind']
        obtain ⟨s', hs'⟩ := ih p.1 indentL p.2 hrest
        exact ⟨s', hs'⟩
      · rw [if_neg h2]
        obtain ⟨s3, hs3⟩ := addToken_ex s2 (' ' :: g) none hsg
        rw [hs3]
        simp only [Option.bind_eq_bind', Option.pure_def, Option.some_bind']
        obtain ⟨s', hs'⟩ := ih s3 indentL (indentL + ((displayWidth g : Int) + 1)) hrest
        exact ⟨s', hs'⟩
    · rw [if_neg h1]
      obtain ⟨s3, hs3⟩ := addToken_ex s (' ' :: g) none hsg
      rw [hs3]
      simp only [Option.bind_eq_bind', Option.pure_def, Option.some_bind']
      obtain ⟨s', hs'⟩ := ih s3 indentL (rw0 + ((displayWidth g : Int) + 1)) hrest
      exact ⟨s', hs'⟩

/-- C3: counterexample — Synopsis is not total: the line "a |" (a space
run followed by a terminal alternation bar) makes the group-extraction
peek at line[i + 1] raise an IndexError, modelled as the none result. -/
theorem c3_counterexample :
    Synopsis (initState 80 0 true) ['a', ' ', '|'] = none := rfl

/-- C3 (amended): Synopsis completes on every line that contains no
style-marker byte and does not end in an alternation bar; group
extraction, space skipping, pipe-alternative peeking and nested-bracket
skipping all terminate with a result. -/
theorem c3_synopsis_total (s : RState) (line : List Char)
    (h1 : NoCSI line) (h2 : line.getLast? ≠ some '|') :
    (Synopsis s line).isSome = true := by
  obtain ⟨gs, hgs, hP⟩ := synGroupsAux_some line.length
    (line.dropWhile fun x => x == ' ') [] []
    (dropWhile_len_le _ line)
    (noCSI_of_sublist _ _ (List.dropWhile_suffix _).sublist h1)
    (fun x hx => absurd hx (List.not_mem_nil x))
    (fun g hg => absurd hg (List.not_mem_nil g))
    (getLast_ne_of_suffix _ _ (List.dropWhile_suffix _) h2)
  have hsg : synGroups line = some gs := hgs
  rw [Synopsis, hsg]
  simp only [Option.bind_eq_bind', Option.pure_def, Option.some_bind']
  obtain ⟨s1, hs1⟩ := addToken_ex s
    (mkSpaces ((s.indent.getD 0 defIndent).indent - 1)) none
    (noCSI_mkSpaces _)
  rw [hs1]
  simp only [Option.bind_eq_bind', Option.pure_def, Option.some_bind']
  obtain ⟨s2, hs2⟩ := synopsisLoop_ex gs s1
    ((s.indent.getD 0 defIndent).indent - 1 + 4)
    ((s.indent.getD 0 defIndent).indent - 1) hP
  rw [hs2]
  rfl

/-- Witness for the amended C3 at a concrete synopsis line. -/
theorem c3_synopsis_total_witness :
    NoCSI ['c', 'm', 'd', ' ', '[', '-', 'a', ']'] ∧
    (['c', 'm', 'd', ' ', '[', '-', 'a', ']'].getLast? ≠ some '|') ∧
    (Synopsis (initState 80 0 true)
      ['c', 'm', 'd', ' ', '[', '-', 'a', ']']).isSome = true :=
  ⟨noCSI_of_ball _ (by decide), by decide,
    c3_synopsis_total (initState 80 0 true)
      ['c', 'm', 'd', ' ', '[', '-', 'a', ']']
      (noCSI_of_ball _ (by decide)) (by decide)⟩

/-- The characters of the words of str.split come from the accumulator or
the input. -/
theorem wordsOfAux_mem :
    ∀ (l cur w : List Char), w ∈ wordsOfAux cur l → ∀ c ∈ w,
      c ∈ cur ∨ c ∈ l := by
  intro l
  induction l with
  | nil =>
    intro cur w hw c hc
    rw [wordsOfAux] at hw
    split at hw
    · exact absurd hw (List.not_mem_nil w)
    · rw [List.mem_singleton.mp hw] at hc
      exact Or.inl (List.mem_reverse.mp hc)
  | cons c0 rest ih =>
    intro cur w hw c hc
    rw [wordsOfAux] at hw
    split at hw
    · split at hw
      · rcases ih [] w hw c hc with h | h
        · exact absurd h (List.not_mem_nil c)
        · exact Or.inr (List.mem_cons.mpr (Or.inr h))
      · rcases List.mem_cons.mp hw with he | hm
        · rw [he] at hc
          exact Or.inl (List.mem_reverse.mp hc)
        · rcases ih [] w hm c hc with h | h
          · exact absurd h (List.not_mem_nil c)
          · exact Or.inr (List.mem_cons.mpr (Or.inr h))
    · rcases ih (c0 :: cur) w hw c hc with h | h
      · rcases List.mem_cons.mp h with he | hm
        · rw [he]
          exact Or.inr (List.mem_cons.mpr (Or.inl rfl))
        · exact Or.inl hm
      · exact Or.inr (List.mem_cons.mpr (Or.inr h))

/-- Every word of str.split is nonempty. -/
theorem wordsOfAux_ne :
    ∀ (l cur w : List Char), w ∈ wordsOfAux cur l → w ≠ [] := by
  intro l
  induction l with
  | nil =>
    intro cur w hw
    rw [wordsOfAux] at hw
    split at hw
    · exact absurd hw (List.not_mem_nil w)
    · rename_i hcur
      rw [List.mem_singleton.mp hw]
      intro he
      rw [List.reverse_eq_nil_iff] at he
      rw [he] at hcur
      exact hcur rfl
  | cons c0 rest ih =>
    intro cur w hw
    rw [wordsOfAux] at hw
    split at hw
    · split at hw
      · exact ih [] w hw
      · rename_i hcur
        rcases List.mem_cons.mp hw with he | hm
        · rw [he]
          intro he2
          rw [List.reverse_eq_nil_iff] at he2
          rw [he2] at hcur
          exact hcur rfl
        · exact ih [] w hm
    · exact ih (c0 :: cur) w hw

/-- On marker-free text the width scan counts one column per
character. -/
theorem displayWidthAux_noCSI (b : List Char) :
    ∀ a : List Char, NoCSI a →
      displayWidthAux false (a ++ b) = a.length + displayWidthAux false b := by
  intro a
  induction a with
  | nil => intro _; simp
  | cons c t ih =>
    intro h
    have hc : ¬ c = CSI := h c (List.mem_cons_self c t)
    have ht : NoCSI t := fun x hx => h x (List.mem_cons.mpr (Or.inr hx))
    rw [List.cons_append, displayWidthAux, if_neg hc, ih ht,
      List.length_cons]
    omega

/-- The display width of marker-free text is its length. -/
theorem displayWidth_noCSI (a : List Char) (h : NoCSI a) :
    displayWidth a = a.length := by
  have h0 := displayWidthAux_noCSI [] a h
  rw [List.append_nil] at h0
  rw [displayWidth, h0]
  rfl

/-- Line width distributes over appended run lists. -/
theorem lineWidth_append (a b : List TokenRun) :
    lineWidth (a ++ b) = lineWidth a + lineWidth b := by
  rw [lineWidth, List.map_append, List.sum_append]
  rfl

/-- The last run of a nonempty buffer splits off. -/
theorem tokens_split_last (l : List TokenRun) (r : TokenRun)
    (h : l.getLast? = some r) : l.dropLast ++ [r] = l := by
  have hne : l ≠ [] := by
    intro he
    rw [he] at h
    simp at h
  have h2 := List.dropLast_append_getLast hne
  rw [List.getLast?_eq_getLast l hne, Option.some_inj] at h
  rw [h] at h2
  exact h2

/-- A run named by getLast? is a member. -/
theorem getLast?_mem_run (l : List TokenRun) (r : TokenRun)
    (h : l.getLast? = some r) : r ∈ l := by
  have hne : l ≠ [] := by
    intro he
    rw [he] at h
    simp at h
  rw [List.getLast?_eq_getLast l hne, Option.some_inj] at h
  rw [← h]
  exact List.getLast_mem hne

/-- Run-buffer well-formedness passes to sublists. -/
theorem tokensOk_sublist (a b : List TokenRun) (hs : List.Sublist a b)
    (h : TokensOk b) : TokensOk a :=
  fun r hr => h r (hs.mem hr)

/-- Trailing-space deletion yields a sublist of the line. -/
theorem trimTrailing_sublist (l : List TokenRun) :
    List.Sublist (trimTrailing l) l := by
  rw [trimTrailing]
  have h1 : List.Sublist (l.reverse.dropWhile fun r => isSpaceStr r.2)
      l.reverse := (List.dropWhile_suffix _).sublist
  have h2 := h1.reverse
  rw [List.reverse_reverse] at h2
  exact h2

/-- Trailing-space deletion never widens a line. -/
theorem trimTrailing_width_le (l : List TokenRun) :
    lineWidth (trimTrailing l) ≤ lineWidth l := by
  rw [lineWidth, lineWidth]
  exact List.Sublist.sum_le_sum ((trimTrailing_sublist l).map runWidth)
    (fun a _ => Nat.zero_le a)

/-- The width bound passes to sublists of the line list. -/
theorem linesWithin_sublist (W : Int) (a b : List (List TokenRun))
    (hs : List.Sublist a b) (h : linesWithinWidth W b = true) :
    linesWithinWidth W a = true := by
  rw [linesWithinWidth, List.all_eq_true] at h ⊢
  exact fun l hl => h l (hs.mem hl)

/-- The width bound of one line of a bounded list. -/
theorem linesWithin_mem (W : Int) (b : List (List TokenRun))
    (l : List TokenRun) (hl : l ∈ b) (h : linesWithinWidth W b = true) :
    (lineWidth l : Int) ≤ W := by
  rw [linesWithinWidth, List.all_eq_true] at h
  exact of_decide_eq_true (h l hl)

/-- The width bound extends to an appended fitting line. -/
theorem linesWithin_append (W : Int) (a : List (List TokenRun))
    (x : List TokenRun) (ha : linesWithinWidth W a = true)
    (hx : (lineWidth x : Int) ≤ W) :
    linesWithinWidth W (a ++ [x]) = true := by
  rw [linesWithinWidth, List.all_eq_true] at ha ⊢
  intro l hl
  rcases List.mem_append.mp hl with h | h
  · exact ha l h
  · rw [List.mem_singleton.mp h]
    exact decide_eq_true hx

/-- A line named by getLast? is a member of the line list. -/
theorem getLast?_mem_line (l : List (List TokenRun)) (a : List TokenRun)
    (h : l.getLast? = some a) : a ∈ l := by
  have hne : l ≠ [] := by
    intro he
    rw [he] at h
    simp at h
  rw [List.getLast?_eq_getLast l hne, Option.some_inj] at h
  rw [← h]
  exact List.getLast_mem hne

/-- mergeOrAddToken with the Normal tag only rewrites the run buffer,
keeps it well-formed and adds exactly the text width. -/
theorem mergeOrAddToken_normal (s : RState) (text : List Char)
    (ht : TokensOk s.tokens) (hn : NoCSI text) :
    ∃ T, mergeOrAddToken s text StyleTag.Normal = { s with tokens := T } ∧
      TokensOk T ∧ lineWidth T = lineWidth s.tokens + text.length := by
  by_cases he : text = []
  · subst he
    refine ⟨s.tokens, ?_, ht, by simp⟩
    rw [mergeOrAddToken, if_pos rfl]
  · cases hlast : s.tokens.getLast? with
    | none =>
      have happ := mergeOrAddToken_append s text StyleTag.Normal he
        (by rw [hlast]; simp)
      refine ⟨s.tokens ++ [(StyleTag.Normal, text)], happ, ?_, ?_⟩
      · intro r hr
        rcases List.mem_append.mp hr with h1 | h2
        · exact ht r h1
        · rw [List.mem_singleton.mp h2]
          exact ⟨rfl, hn, he⟩
      · rw [lineWidth_append]
        have h2 : lineWidth [(StyleTag.Normal, text)] = text.length := by
          simp [lineWidth, runWidth, displayWidth_noCSI text hn]
        rw [h2]
    | some r =>
      obtain ⟨lt, ltext⟩ := r
      obtain ⟨hlt0, hltn, hltne⟩ := ht _ (getLast?_mem_run _ _ hlast)
      have hlt : lt = StyleTag.Normal := hlt0
      subst hlt
      have hmerge := mergeOrAddToken_merge s text ltext StyleTag.Normal he
        (by decide) hlast
      refine ⟨s.tokens.dropLast ++ [(StyleTag.Normal, ltext ++ text)],
        hmerge, ?_, ?_⟩
      · intro r hr
        rcases List.mem_append.mp hr with h1 | h2
        · exact ht r ((List.dropLast_sublist s.tokens).mem h1)
        · rw [List.mem_singleton.mp h2]
          refine ⟨rfl, noCSI_append _ _ hltn hn, ?_⟩
          intro hne2
          rcases List.append_eq_nil.mp hne2 with ⟨h3, _⟩
          exact hltne h3
      · have hsplit := tokens_split_last s.tokens (StyleTag.Normal, ltext) hlast
        have hw1 : lineWidth [(StyleTag.Normal, ltext ++ text)] =
            ltext.length + text.length := by
          simp [lineWidth, runWidth,
            displayWidth_noCSI _ (noCSI_append _ _ hltn hn)]
        have hw2 : lineWidth [(StyleTag.Normal, ltext)] = ltext.length := by
          simp [lineWidth, runWidth, displayWidth_noCSI _ hltn]
        rw [lineWidth_append, hw1]
        conv_rhs => rw [← hsplit]
        rw [lineWidth_append, hw2]
        omega

/-- addToken with a Normal effective tag on marker-free text only touches
the paragraph flag and the run buffer, adding exactly the text width. -/
theorem addToken_normal (s : RState) (text : List Char)
    (tt : Option StyleTag)
    (htt : tt.getD s.currentTokenType = StyleTag.Normal)
    (ht : TokensOk s.tokens) (hn : NoCSI text) :
    ∃ b T, addToken s text tt =
        some { s with ignoreParagraph := b, tokens := T } ∧
      TokensOk T ∧ lineWidth T = lineWidth s.tokens + text.length := by
  have hni : ¬ CSI ∈ text := fun hm => hn CSI hm rfl
  rw [addToken]
  rw [if_neg (by simpa using hni)]
  by_cases hc : (!text.isEmpty && !isSpaceStr text) = true
  · rw [if_pos hc]
    obtain ⟨T, hT, hT2, hT3⟩ := mergeOrAddToken_normal
      { s with ignoreParagraph := false } text ht hn
    simp only [htt]
    rw [hT]
    exact ⟨false, T, rfl, hT2, hT3⟩
  · rw [if_neg hc]
    obtain ⟨T, hT, hT2, hT3⟩ := mergeOrAddToken_normal s text ht hn
    simp only [htt]
    rw [hT]
    exact ⟨s.ignoreParagraph, T, rfl, hT2, hT3⟩

/-- The state half of _Truncate only sets the truncated flag. -/
theorem truncateTokens_fst (s : RState) (tokens : List TokenRun)
    (ov : Option (List Char × Int)) :
    (truncateTokens s tokens ov).1 = { s with truncated := true } := rfl

/-- _NewLine on an untruncated state empties the buffer, keeps every
other scalar field, and either finalizes a fitting line without
truncating or truncates so that all lines but the last fit. -/
theorem newLine_untrunc (W : Int) (s : RState)
    (ov : Option (List Char × Int)) (htr : s.truncated = false)
    (hlines : linesWithinWidth W s.lines = true)
    (hwid : (lineWidth s.tokens : Int) ≤ W) :
    (newLine s ov).tokens = [] ∧
    (newLine s ov).width = s.width ∧
    (newLine s ov).level = s.level ∧
    (newLine s ov).compact = s.compact ∧
    (newLine s ov).ignoreWidth = s.ignoreWidth ∧
    (newLine s ov).currentTokenType = s.currentTokenType ∧
    (newLine s ov).indent = s.indent ∧
    (newLine s ov).fill = s.fill ∧
    ((newLine s ov).truncated = false ∧
      linesWithinWidth W (newLine s ov).lines = true ∨
     (newLine s ov).truncated = true ∧
      linesWithinWidth W (newLine s ov).lines.dropLast = true) := by
  simp only [newLine]
  rw [htr]
  simp only [Bool.false_or]
  by_cases h1 : (s.tokens.isEmpty && s.compact) = true
  · rw [if_pos h1]
    exact ⟨rfl, rfl, rfl, rfl, rfl, rfl, rfl, rfl, Or.inl ⟨rfl, hlines⟩⟩
  · rw [if_neg h1]
    cases hgl : s.lines.getLast? with
    | none =>
      simp only []
      split <;> split
      · refine ⟨rfl, rfl, rfl, rfl, rfl, rfl, rfl, rfl, Or.inr ⟨rfl, ?_⟩⟩
        simp only [truncateTokens_fst]
        rw [List.dropLast_concat]
        exact hlines
      · exact ⟨rfl, rfl, rfl, rfl, rfl, rfl, rfl, rfl,
          Or.inl ⟨rfl, linesWithin_append W s.lines s.tokens hlines hwid⟩⟩
      · refine ⟨rfl, rfl, rfl, rfl, rfl, rfl, rfl, rfl, Or.inr ⟨rfl, ?_⟩⟩
        simp only [truncateTokens_fst]
        rw [List.dropLast_concat]
        exact hlines
      · exact ⟨rfl, rfl, rfl, rfl, rfl, rfl, rfl, rfl,
          Or.inl ⟨rfl, linesWithin_append W s.lines s.tokens hlines hwid⟩⟩
    | some last =>
      have hlast : (lineWidth last : Int) ≤ W :=
        linesWithin_mem W s.lines last (getLast?_mem_line _ _ hgl) hlines
      have htrimmed : linesWithinWidth W
          (s.lines.dropLast ++ [trimTrailing last]) = true :=
        linesWithin_append W s.lines.dropLast (trimTrailing last)
          (linesWithin_sublist W _ _ (List.dropLast_sublist _) hlines)
          (le_trans (Nat.cast_le.mpr (trimTrailing_width_le last)) hlast)
      simp only []
      split <;> split
      · refine ⟨rfl, rfl, rfl, rfl, rfl, rfl, rfl, rfl, Or.inr ⟨rfl, ?_⟩⟩
        simp only [truncateTokens_fst]
        rw [List.dropLast_concat]
        exact htrimmed
      · exact ⟨rfl, rfl, rfl, rfl, rfl, rfl, rfl, rfl, Or.inl ⟨rfl,
          linesWithin_append W _ s.tokens htrimmed hwid⟩⟩
      · refine ⟨rfl, rfl, rfl, rfl, rfl, rfl, rfl, rfl, Or.inr ⟨rfl, ?_⟩⟩
        simp only [truncateTokens_fst]
        rw [List.dropLast_concat]
        exact htrimmed
      · exact ⟨rfl, rfl, rfl, rfl, rfl, rfl, rfl, rfl, Or.inl ⟨rfl,
          linesWithin_append W _ s.tokens htrimmed hwid⟩⟩

/-- fillWord is its leading-margin handling followed by its tail. -/
theorem fillWord_eq (s : RState) (word : List Char) :
    fillWord s word =
      (if s.fill = 0 then
        let t :=
          if s.level ≠ 0 ∨ s.compact = false then
            { s with fill := (s.indent.getD s.level defIndent).indent - 1 }
          else { s with level := 0 }
        addToken t (mkSpaces t.fill) none
      else pure s) >>= fun t => fillWordRest t word := by
  by_cases h0 : s.fill = 0
  · rw [fillWord, if_pos h0, if_pos h0]
    rfl
  · rw [fillWord, if_neg h0, if_neg h0]
    rfl

/-- Field accounting for addToken on marker-free text with a Normal
effective tag: only the paragraph flag and the run buffer change, and
the buffer gains exactly the text width. -/
theorem addToken_some_inv (s : RState) (text : List Char)
    (tt : Option StyleTag)
    (htt : tt.getD s.currentTokenType = StyleTag.Normal)
    (ht : TokensOk s.tokens) (hn : NoCSI text) (s' : RState)
    (hs : addToken s text tt = some s') :
    s'.width = s.width ∧ s'.level = s.level ∧ s'.compact = s.compact ∧
    s'.ignoreWidth = s.ignoreWidth ∧
    s'.currentTokenType = s.currentTokenType ∧ s'.indent = s.indent ∧
    s'.lines = s.lines ∧ s'.truncated = s.truncated ∧ s'.fill = s.fill ∧
    TokensOk s'.tokens ∧
    lineWidth s'.tokens = lineWidth s.tokens + text.length := by
  obtain ⟨b, T, hA, hT2, hT3⟩ := addToken_normal s text tt htt ht hn
  rw [hA] at hs
  cases hs
  exact ⟨rfl, rfl, rfl, rfl, rfl, rfl, rfl, rfl, rfl, hT2, hT3⟩

/-- The tail of one Fill word step preserves the Fill invariant on an
untruncated state whose word fits. -/
theorem fillWordRest_inv (W : Int) (s : RState) (word : List Char)
    (hw : NoCSI word) (hwfit : (displayWidth word : Int) + 1 ≤ W)
    (htr : s.truncated = false) (hwidth : s.width = W)
    (hlevel : s.level = 0) (hcompact : s.compact = true)
    (hiw : s.ignoreWidth = false)
    (hctt : s.currentTokenType = StyleTag.Normal)
    (hind : (s.indent.getD 0 defIndent).indent = 0)
    (htok : TokensOk s.tokens)
    (hlines : linesWithinWidth W s.lines = true)
    (hfeq : (lineWidth s.tokens : Int) = s.fill) (hfnn : 0 ≤ s.fill)
    (hfb : s.fill + 1 ≤ W) :
    ∀ s', fillWordRest s word = some s' → FillInv W s' := by
  intro s' hs
  rw [fillWordRest] at hs
  split at hs
  · simp only [Option.bind_eq_bind', Option.pure_def, Option.some_bind',
      Option.bind_eq_some', Option.some.injEq] at hs
    obtain ⟨u, hu, hrest⟩ := hs
    obtain ⟨ht1, ht2, ht3, ht4, ht5, ht6, ht7, ht8, ht9⟩ :=
      newLine_untrunc W s (some (word, s.width - s.fill)) htr hlines
        (le_trans (le_of_eq hfeq) (by omega))
    set n1 := newLine s (some (word, s.width - s.fill)) with hn1
    have hctt1 : n1.currentTokenType = StyleTag.Normal := ht6.trans hctt
    have htokn1 : TokensOk n1.tokens := by
      rw [ht1]
      exact fun r hr => absurd hr (List.not_mem_nil r)
    have hE : (n1.indent.getD n1.level defIndent).indent = 0 := by
      rw [ht7, ht3, hlevel]
      exact hind
    have f1 := addToken_some_inv
      { n1 with fill := (n1.indent.getD n1.level defIndent).indent }
      (mkSpaces (n1.indent.getD n1.level defIndent).indent) none
      hctt1 htokn1 (noCSI_mkSpaces _) u hu
    obtain ⟨g1, g2, g3, g4, g5, g6, g7, g8, g9, g10, g11⟩ := f1
    have hu_ct : u.currentTokenType = StyleTag.Normal :=
      (g5 : u.currentTokenType = n1.currentTokenType).trans hctt1
    have hu_fl : u.fill = (n1.indent.getD n1.level defIndent).indent := g9
    have hu_wd0 : lineWidth u.tokens = 0 := by
      have hu_wd : lineWidth u.tokens = lineWidth n1.tokens +
          (mkSpaces (n1.indent.getD n1.level defIndent).indent).length := g11
      rw [hu_wd, ht1, hE]
      rfl
    have f2 := addToken_some_inv
      { u with fill := u.fill + (displayWidth word : Int) } word none
      hu_ct (g10 : TokensOk u.tokens) hw s' hrest
    obtain ⟨k1, k2, k3, k4, k5, k6, k7, k8, k9, k10, k11⟩ := f2
    have hs_fl : s'.fill = u.fill + (displayWidth word : Int) := k9
    have hs_wd : lineWidth s'.tokens = lineWidth u.tokens + word.length := k11
    rcases ht9 with ⟨hnt, hnl⟩ | ⟨hnt, hnl⟩
    · refine Or.inr ⟨?_, ?_, ?_, ?_, ?_, ?_, ?_, ?_, ?_, ?_, ?_, ?_⟩
      · exact (k8 : s'.truncated = u.truncated).trans
          ((g8 : u.truncated = n1.truncated).trans hnt)
      · exact (k1 : s'.width = u.width).trans
          ((g1 : u.width = n1.width).trans (ht2.trans hwidth))
      · exact (k2 : s'.level = u.level).trans
          ((g2 : u.level = n1.level).trans (ht3.trans hlevel))
      · exact (k3 : s'.compact = u.compact).trans
          ((g3 : u.compact = n1.compact).trans (ht4.trans hcompact))
      · exact (k4 : s'.ignoreWidth = u.ignoreWidth).trans
          ((g4 : u.ignoreWidth = n1.ignoreWidth).trans (ht5.trans hiw))
      · exact (k5 : s'.currentTokenType = u.currentTokenType).trans hu_ct
      · have hsi : s'.indent = s.indent := (k6 : s'.indent = u.indent).trans
          ((g6 : u.indent = n1.indent).trans ht7)
        rw [hsi]
        exact hind
      · exact k10
      · have hsl : s'.lines = n1.lines :=
          (k7 : s'.lines = u.lines).trans (g7 : u.lines = n1.lines)
        rw [hsl]
        exact hnl
      · rw [hs_wd, hu_wd0, hs_fl, hu_fl, hE, displayWidth_noCSI word hw]
        push_cast
        omega
      · rw [hs_fl, hu_fl, hE]
        omega
      · rw [hs_fl, hu_fl, hE]
        omega
    · refine Or.inl ⟨?_, ?_⟩
      · exact (k8 : s'.truncated = u.truncated).trans
          ((g8 : u.truncated = n1.truncated).trans hnt)
      · have hsl : s'.lines = n1.lines :=
          (k7 : s'.lines = u.lines).trans (g7 : u.lines = n1.lines)
        rw [hsl]
        exact hnl
  · rename_i hnov
    have hnov2 : ¬ (s.width - s.fill ≤ (displayWidth word : Int) + 1) :=
      fun hc => hnov ⟨hc, hiw⟩
    simp only [Option.bind_eq_bind', Option.pure_def, Option.some_bind'] at hs
    split at hs
    · simp only [Option.bind_eq_bind', Option.pure_def, Option.some_bind',
        Option.bind_eq_some', Option.some.injEq] at hs
      obtain ⟨u, hu, hrest⟩ := hs
      have f1 := addToken_some_inv
        { s with ignoreWidth := false, fill := s.fill + 1 } [' '] none
        hctt htok (noCSI_of_ball _ (by decide)) u hu
      obtain ⟨g1, g2, g3, g4, g5, g6, g7, g8, g9, g10, g11⟩ := f1
      have hu_ct : u.currentTokenType = StyleTag.Normal :=
        (g5 : u.currentTokenType = s.currentTokenType).trans hctt
      have hu_fl : u.fill = s.fill + 1 := g9
      have hu_wd : lineWidth u.tokens = lineWidth s.tokens + 1 := g11
      have f2 := addToken_some_inv
        { u with fill := u.fill + (displayWidth word : Int) } word none
        hu_ct (g10 : TokensOk u.tokens) hw s' hrest
      obtain ⟨k1, k2, k3, k4, k5, k6, k7, k8, k9, k10, k11⟩ := f2
      have hs_fl : s'.fill = u.fill + (displayWidth word : Int) := k9
      have hs_wd : lineWidth s'.tokens = lineWidth u.tokens + word.length := k11
      refine Or.inr ⟨?_, ?_, ?_, ?_, ?_, ?_, ?_, ?_, ?_, ?_, ?_, ?_⟩
      · exact (k8 : s'.truncated = u.truncated).trans
          ((g8 : u.truncated = s.truncated).trans htr)
      · exact (k1 : s'.width = u.width).trans
          ((g1 : u.width = s.width).trans hwidth)
      · exact (k2 : s'.level = u.level).trans
          ((g2 : u.level = s.level).trans hlevel)
      · exact (k3 : s'.compact = u.compact).trans
          ((g3 : u.compact = s.compact).trans hcompact)
      · exact (k4 : s'.ignoreWidth = u.ignoreWidth).trans
          (g4 : u.ignoreWidth = false)
      · exact (k5 : s'.currentTokenType = u.currentTokenType).trans hu_ct
      · have hsi : s'.indent = s.indent :=
          (k6 : s'.indent = u.indent).trans (g6 : u.indent = s.indent)
        rw [hsi]
        exact hind
      · exact k10
      · have hsl : s'.lines = s.lines :=
          (k7 : s'.lines = u.lines).trans (g7 : u.lines = s.lines)
        rw [hsl]
        exact hlines
      · rw [hs_wd, hu_wd, hs_fl, hu_fl, displayWidth_noCSI word hw]
        push_cast
        omega
      · rw [hs_fl, hu_fl]
        omega
      · rw [hs_fl, hu_fl]
        omega
    · rename_i hf0
      have f2 := addToken_some_inv
        { s with ignoreWidth := false,
                 fill := s.fill + (displayWidth word : Int) } word none
        hctt htok hw s' hs
      obtain ⟨k1, k2, k3, k4, k5, k6, k7, k8, k9, k10, k11⟩ := f2
      have h00 : s.fill = 0 := by
        by_contra hcc
        exact hf0 hcc
      have hs_fl : s'.fill = s.fill + (displayWidth word : Int) := k9
      have hs_wd : lineWidth s'.tokens = lineWidth s.tokens + word.length := k11
      refine Or.inr ⟨?_, ?_, ?_, ?_, ?_, ?_, ?_, ?_, ?_, ?_, ?_, ?_⟩
      · exact (k8 : s'.truncated = s.truncated).trans htr
      · exact (k1 : s'.width = s.width).trans hwidth
      · exact (k2 : s'.level = s.level).trans hlevel
      · exact (k3 : s'.compact = s.compact).trans hcompact
      · exact (k4 : s'.ignoreWidth = false)
      · exact (k5 : s'.currentTokenType = s.currentTokenType).trans hctt
      · have hsi : s'.indent = s.indent := k6
        rw [hsi]
        exact hind
      · exact k10
      · have hsl : s'.lines = s.lines := k7
        rw [hsl]
        exact hlines
      · rw [hs_wd, hs_fl, displayWidth_noCSI word hw]
        push_cast
        omega
      · rw [hs_fl]
        omega
      · rw [hs_fl, h00]
        omega

/-- One Fill word step preserves the Fill invariant. -/
theorem fillWord_inv (W : Int) (s : RState) (word : List Char)
    (hw : NoCSI word) (hwfit : (displayWidth word : Int) + 1 ≤ W)
    (hInv : FillInv W s) :
    ∀ s', fillWord s word = some s' → FillInv W s' := by
  intro s' hs
  rcases hInv with ⟨htr, hdl⟩ |
    ⟨htr, hwidth, hlevel, hcompact, hiw, hctt, hind, htok, hlines, hfeq,
      hfnn, hfb⟩
  · have hfz := frozen_fillWord s word htr s' hs
    exact Or.inl ⟨hfz.2, by rw [hfz.1]; exact hdl⟩
  · rw [fillWord_eq] at hs
    by_cases h0 : s.fill = 0
    · rw [if_pos h0] at hs
      rw [if_neg (by simp [hlevel, hcompact])] at hs
      simp only [Option.bind_eq_bind', Option.pure_def, Option.some_bind',
        Option.bind_eq_some', Option.some.injEq] at hs
      obtain ⟨u, hu, hrest⟩ := hs
      have f1 := addToken_some_inv { s with level := 0 } (mkSpaces s.fill)
        none hctt htok (noCSI_mkSpaces _) u hu
      obtain ⟨g1, g2, g3, g4, g5, g6, g7, g8, g9, g10, g11⟩ := f1
      have e1 : lineWidth u.tokens =
          lineWidth s.tokens + (mkSpaces s.fill).length := g11
      have e2 : u.fill = s.fill := g9
      have e3 : (mkSpaces s.fill).length = 0 := by
        rw [h0]
        rfl
      refine fillWordRest_inv W u word hw hwfit
        ((g8 : u.truncated = s.truncated).trans htr)
        ((g1 : u.width = s.width).trans hwidth)
        (g2 : u.level = 0)
        ((g3 : u.compact = s.compact).trans hcompact)
        ((g4 : u.ignoreWidth = s.ignoreWidth).trans hiw)
        ((g5 : u.currentTokenType = s.currentTokenType).trans hctt)
        ?_ g10 ?_ (by omega) (by omega) (by omega) s' hrest
      · rw [(g6 : u.indent = s.indent)]
        exact hind
      · rw [(g7 : u.lines = s.lines)]
        exact hlines
    · rw [if_neg h0] at hs
      simp only [Option.pure_def, Option.some_bind'] at hs
      exact fillWordRest_inv W s word hw hwfit htr hwidth hlevel hcompact
        hiw hctt hind htok hlines hfeq hfnn hfb s' hs

/-- Filling a list of fitting words preserves the Fill invariant. -/
theorem fillWords_inv (W : Int) : ∀ (ws : List (List Char)) (s : RState),
    (∀ w ∈ ws, NoCSI w ∧ (displayWidth w : Int) + 1 ≤ W) →
    FillInv W s → ∀ s', fillWords s ws = some s' → FillInv W s' := by
  intro ws
  induction ws with
  | nil =>
    intro s _ hInv s' hs
    rw [fillWords] at hs
    simp only [Option.some.injEq] at hs
    exact hs ▸ hInv
  | cons w ws ih =>
    intro s hprops hInv s' hs
    rw [fillWords] at hs
    simp only [Option.bind_eq_bind', Option.bind_eq_some'] at hs
    obtain ⟨u, hu, hrest⟩ := hs
    have hp := hprops w (List.mem_cons_self w ws)
    have h1 := fillWord_inv W s w hp.1 hp.2 hInv u hu
    exact ih u (fun v hv => hprops v (List.mem_cons_of_mem w hv)) h1 s' hrest

/-- On a fresh state, Fill establishes the Fill invariant. -/
theorem Fill_inv (W : Int) (H : Nat) (line : List Char) (hW : 1 ≤ W)
    (hno : NoCSI line)
    (hwords : ∀ w ∈ wordsOf line, (displayWidth w : Int) + 1 ≤ W) :
    ∀ s', Fill (initState W H true) line = some s' → FillInv W s' := by
  intro s' hs
  rw [Fill] at hs
  refine fillWords_inv W (wordsOf line) _ ?_ ?_ s' hs
  · intro w hmem
    refine ⟨?_, hwords w hmem⟩
    intro c hc hcsi
    rcases wordsOfAux_mem line [] w hmem c hc with hcl | hcl
    · exact absurd hcl (List.not_mem_nil c)
    · exact hno c hcl hcsi
  · refine Or.inr ⟨rfl, rfl, rfl, rfl, rfl, rfl, rfl, ?_, rfl, rfl, ?_, ?_⟩
    · exact fun r hr => absurd hr (List.not_mem_nil r)
    · exact le_refl 0
    · show (0 : Int) + 1 ≤ W
      omega

/-- C1 (amended): on a fresh compact session of width W ≥ 1 whose sole
input event is the Fill (a fresh compact session has no established
indent, so the zero-indent invariant holds throughout), for a Fill line
with no style-marker bytes all of whose words fit in the width (each
word needs one extra column of room, per the wrapping condition
`available <= width + 1`), every line of the Finish() output — except
the final line when truncation occurred — has display width at most W.
The original claim, which holds those premises from no session or line
at all, is refuted by c1_counterexample. -/
theorem c1_fill_width_bound (W : Int) (H : Nat) (line : List Char)
    (hW : 1 ≤ W) (hno : NoCSI line)
    (hwords : ∀ w ∈ wordsOf line, (displayWidth w : Int) + 1 ≤ W) :
    ∀ s', Fill (initState W H true) line = some s' →
      linesWithinWidth W
        (if (finishState s').truncated = true then (Finish s').dropLast
         else Finish s') = true := by
  intro s' hs
  have hInv := Fill_inv W H line hW hno hwords s' hs
  have hfc := font_fst_fields (flush s') none
  rcases hInv with ⟨htr, hdl⟩ |
    ⟨htr, hwidth, hlevel, hcompact, hiw, hctt, hind, htok, hlines, hfeq,
      hfnn, hfb⟩
  · have hf := frozen_flush s' htr
    have h1 : (finishState s').truncated = true := by
      rw [finishState, hfc.2.1]
      exact hf.2
    rw [if_pos h1]
    have h2 : Finish s' = s'.lines := finish_truncated s' htr
    rw [h2]
    exact hdl
  · have key : (flush s').truncated = false ∧
        linesWithinWidth W (flush s').lines = true ∨
        (flush s').truncated = true ∧
        linesWithinWidth W (flush s').lines.dropLast = true := by
      rw [flush]
      split
      · obtain ⟨k1, k2, k3, k4, k5, k6, k7, k8, k9⟩ :=
          newLine_untrunc W { s' with ignoreWidth := false } none htr hlines
            (le_trans (le_of_eq hfeq) (by omega))
        rcases k9 with ⟨hkt, hkl⟩ | ⟨hkt, hkl⟩
        · exact Or.inl ⟨hkt, hkl⟩
        · exact Or.inr ⟨hkt, hkl⟩
      · exact Or.inl ⟨htr, hlines⟩
    have h2 : Finish s' = (flush s').lines := by
      rw [Finish, finishState]
      exact hfc.1
    rcases key with ⟨hkt, hkl⟩ | ⟨hkt, hkl⟩
    · have h1 : (finishState s').truncated = false := by
        rw [finishState, hfc.2.1]
        exact hkt
      rw [if_neg (by rw [h1]; exact Bool.false_ne_true), h2]
      exact hkl
    · have h1 : (finishState s').truncated = true := by
        rw [finishState, hfc.2.1]
        exact hkt
      rw [if_pos h1, h2]
      exact hkl

/-- Witness for C1 (amended) at width 9, height 0 (no height limit),
line "one two three". -/
theorem c1_fill_width_bound_witness :
    (1 : Int) ≤ 9 ∧ NoCSI fillDemoLine ∧
    (∀ w ∈ wordsOf fillDemoLine, (displayWidth w : Int) + 1 ≤ 9) ∧
    Fill (initState 9 0 true) fillDemoLine = some fillDemoState ∧
    linesWithinWidth 9
      (if (finishState fillDemoState).truncated = true
       then (Finish fillDemoState).dropLast
       else Finish fillDemoState) = true :=
  ⟨by decide, noCSI_of_ball _ (by decide), by decide, rfl,
    c1_fill_width_bound 9 0 fillDemoLine (by decide)
      (noCSI_of_ball _ (by decide)) (by decide) fillDemoState rfl⟩
